import Mathlib

/-!
# Verification of the GRAPE resolution-sweep history builder and tree assembler

This file is a shallow embedding, in Lean 4, of the core algorithms of the
GRAPE phylogenetic-reconstruction program:

* `src/history.py` — community-detection adapters, parameter-search
  strategies, the partition reconciliation `split_sets`, and the
  resolution-sweep `build_history` loop;
* `src/grape.py` — the historical variant of the same sweep (whose
  detector adapters cast the resolution to `int` before calling the
  detector, and whose reconciliation calls `common.decompose_sets`);
* `src/tree.py` — `build_tree_from_history` and
  `remove_single_descendant_nodes`;
* `src/graph.py` — `adjusted_cognateset_graph`.

Python floats are modelled as exact rationals (`ℚ`); Python `set` /
`frozenset` of hashables as `Finset`; Python lists as `List`; functions
that can raise as `Except`-valued functions.  The community detector
(networkx) is external to the repository and is abstracted as a function
argument `find : ℚ → List (Finset α)`; the `while True:` sweep, which can
genuinely diverge, is embedded with an explicit fuel argument, `none`
meaning that the loop did not terminate within the given fuel.
-/

namespace Grape

/-- `common.HistoryEntry` (src/common.py): a resolution value together with
the list of communities accepted at that resolution. -/
structure HistoryEntry (α : Type) where
  parameter : ℚ
  communities : List (Finset α)
deriving DecidableEq

/-- `HistoryEntry.number_of_communities` (src/common.py): the number of
communities of the entry (a cached `len` in the source). -/
def HistoryEntry.number_of_communities (e : HistoryEntry α) : ℕ :=
  e.communities.length

/-- `split_sets` (src/history.py): split every set of `list2` into its
non-empty intersections with the sets of `list1`, flattening the result.
The outer iteration is over `list2`, the inner one over `list1`, exactly
as in the source. -/
def split_sets [DecidableEq α] (list1 list2 : List (Finset α)) : List (Finset α) :=
  (list2.map (fun set2 =>
    list1.filterMap (fun set1 =>
      if (set2 ∩ set1).Nonempty then some (set2 ∩ set1) else none))).flatten

/-- Modelled from the spec: `common.decompose_sets`, called by
`build_history` in src/grape.py, is not present in src/common.py.  Per
spec §4.2 step 3, reconciliation computes, "for every pair (previous
clade, newly identified clade), their intersection; if non-empty, emit it
as a clade of the new accepted partition" — the same computation as
`split_sets` (src/history.py), with the newly identified clades iterated
outermost. -/
def decompose_sets [DecidableEq α] (list1 list2 : List (Finset α)) : List (Finset α) :=
  (list2.map (fun set2 =>
    list1.filterMap (fun set1 =>
      if (set2 ∩ set1).Nonempty then some (set2 ∩ set1) else none))).flatten

/-- The mutable state of a `ParameterSearchStrategy` object
(src/history.py; the classes in src/grape.py are identical).
`fixedIncrement` carries the constant step; `dynamicAdjustment` carries
`adjust_factor` and the current `value`; `adaptiveDynamic` carries
`initial_value`, the current `adjust_factor`, the `target`, the current
`value` and `previous_diff` (`None` before the first update). -/
inductive StratState where
  | fixedIncrement (increment : ℚ)
  | dynamicAdjustment (adjust_factor value : ℚ)
  | adaptiveDynamic (initial_value adjust_factor : ℚ) (target : ℕ) (value : ℚ)
      (previous_diff : Option ℕ)
deriving DecidableEq

/-- `ParameterSearchStrategy.initialize` for each concrete strategy:
`FixedIncrementStrategy.initialize` returns `0.0`,
`DynamicAdjustmentStrategy.initialize` returns `self.value`,
`AdaptiveDynamicAdjustmentStrategy.initialize` returns
`self.initial_value`. -/
def stratInit : StratState → ℚ
  | .fixedIncrement _ => 0
  | .dynamicAdjustment _ value => value
  | .adaptiveDynamic initial_value _ _ _ _ => initial_value

/-- `should_stop` for every strategy: `num_communities == target`. -/
def stratShouldStop (_s : StratState) (num_communities target : ℕ) : Bool :=
  num_communities = target

/-- The call `strategy.update(parameter)` as issued by `build_history`
(src/history.py line 216, src/grape.py line 192), which passes a single
positional argument.  `FixedIncrementStrategy.update` returns
`current_value + increment`; `DynamicAdjustmentStrategy.update` performs
`self.value += self.adjust_factor * self.value` and returns the new
value; `AdaptiveDynamicAdjustmentStrategy.update` has signature
`update(self, current_value, current_communities)` with no default for
`current_communities`, so the one-argument call raises `TypeError` —
modelled as `none`. -/
def stratUpdate1 : StratState → ℚ → Option (ℚ × StratState)
  | .fixedIncrement increment, current_value =>
      some (current_value + increment, .fixedIncrement increment)
  | .dynamicAdjustment adjust_factor value, _current_value =>
      let value' := value + adjust_factor * value
      some (value', .dynamicAdjustment adjust_factor value')
  | .adaptiveDynamic _ _ _ _ _, _current_value => none

/-- Decidable equality for `Except` results, used to evaluate the
embedding on concrete inputs. -/
def exceptDecEq {ε β : Type} [DecidableEq ε] [DecidableEq β] :
    (a b : Except ε β) → Decidable (a = b)
  | .error x, .error y =>
    match decEq x y with
    | .isTrue h => .isTrue (by rw [h])
    | .isFalse h => .isFalse (by intro hh; cases hh; exact h rfl)
  | .error _, .ok _ => .isFalse (by intro hh; cases hh)
  | .ok _, .error _ => .isFalse (by intro hh; cases hh)
  | .ok x, .ok y =>
    match decEq x y with
    | .isTrue h => .isTrue (by rw [h])
    | .isFalse h => .isFalse (by intro hh; cases hh; exact h rfl)

instance {ε β : Type} [DecidableEq ε] [DecidableEq β] : DecidableEq (Except ε β) :=
  exceptDecEq

/-- The errors `build_history` can raise: the two `ValueError`s for an
unsupported method or strategy name, and the `TypeError` from calling the
adaptive strategy's two-argument `update` with one argument. -/
inductive BuildHistoryError where
  | unsupportedMethod
  | unsupportedStrategy
  | typeError
deriving DecidableEq

/-- The strategy dictionary of `build_history` (identical in
src/history.py lines 175-185 and src/grape.py lines 149-159):
`"fixed"` maps to `FixedIncrementStrategy()` (default increment `0.1`,
ignoring `initial_value` and `adjust_factor`), `"dynamic"` to
`DynamicAdjustmentStrategy(initial_value, adjust_factor)`, `"adaptive"`
to `AdaptiveDynamicAdjustmentStrategy` with target `num_languages`;
anything else is unsupported. -/
def pickStrategy (strategy : String) (initial_value adjust_factor : ℚ)
    (num_languages : ℕ) : Option StratState :=
  if strategy = "fixed" then some (.fixedIncrement (1/10))
  else if strategy = "dynamic" then
    some (.dynamicAdjustment adjust_factor initial_value)
  else if strategy = "adaptive" then
    some (.adaptiveDynamic initial_value adjust_factor num_languages initial_value none)
  else none

/-- The acceptance step of the sweep loop (src/history.py lines 204-211,
identically src/grape.py lines 180-187): append
`HistoryEntry(parameter, communities)` when the history is empty or the
community count strictly exceeds the last accepted entry's count;
otherwise leave history unchanged. -/
def acceptEntry (history : List (HistoryEntry α)) (parameter : ℚ)
    (communities : List (Finset α)) : List (HistoryEntry α) :=
  match history.getLast? with
  | none => history ++ [⟨parameter, communities⟩]
  | some last =>
      if communities.length > last.number_of_communities then
        history ++ [⟨parameter, communities⟩]
      else history

namespace History

/-- The reconciliation step of the sweep loop (src/history.py lines
198-202): on the first iteration accept the identified communities
as-is, otherwise split them against the last accepted entry. -/
def reconcile [DecidableEq α] (history : List (HistoryEntry α))
    (identified_communities : List (Finset α)) : List (Finset α) :=
  match history.getLast? with
  | none => identified_communities
  | some last => split_sets last.communities identified_communities

/-- The `while True:` loop of `build_history` (src/history.py lines
192-218), with explicit fuel.  Besides the history it also accumulates
the list of resolution values passed to
`community_method.find_communities`, one per iteration, so that theorems
can speak about the detector calls.  Returns `none` when the fuel runs
out (the loop has no bound in the source and can diverge). -/
def buildHistoryAux [DecidableEq α] (find : ℚ → List (Finset α)) (num_languages : ℕ) :
    ℕ → List (HistoryEntry α) → ℚ → StratState → List ℚ →
    Option (Except BuildHistoryError (List (HistoryEntry α)) × List ℚ)
  | 0, _, _, _, _ => none
  | fuel + 1, history, parameter, strat, trace =>
    let trace' := trace ++ [parameter]
    let identified_communities := find parameter
    let communities := reconcile history identified_communities
    let num_communities := communities.length
    let history' := acceptEntry history parameter communities
    if stratShouldStop strat num_communities num_languages then
      some (.ok history', trace')
    else
      match stratUpdate1 strat parameter with
      | none => some (.error .typeError, trace')
      | some (parameter', strat') =>
          buildHistoryAux find num_languages fuel history' parameter' strat' trace'

/-- `build_history` (src/history.py lines 157-218).  The community
detector is external (networkx); `greedyFind` and `louvainFind` stand for
`GreedyModularity.find_communities` and
`LouvainCommunities.find_communities` on the given graph, which pass the
resolution through unchanged.  The first component of the result is the
returned history (or the raised error); the second is the instrumented
list of resolutions passed to the detector. -/
def build_history [DecidableEq α] (greedyFind louvainFind : ℚ → List (Finset α))
    (num_languages : ℕ) (method strategy : String) (initial_value adjust_factor : ℚ)
    (fuel : ℕ) :
    Option (Except BuildHistoryError (List (HistoryEntry α)) × List ℚ) :=
  match (if method = "greedy" then some greedyFind
         else if method = "louvain" then some louvainFind
         else none) with
  | none => some (.error .unsupportedMethod, [])
  | some find =>
    match pickStrategy strategy initial_value adjust_factor num_languages with
    | none => some (.error .unsupportedStrategy, [])
    | some strat =>
        buildHistoryAux find num_languages fuel [] (stratInit strat) strat []

end History

/-- Python `int()` applied to a float: truncation toward zero, i.e. the
floor for non-negative arguments and the ceiling for negative ones. -/
def pyInt (q : ℚ) : ℤ := if 0 ≤ q then ⌊q⌋ else ⌈q⌉

namespace GrapeMain

/-- The reconciliation step of the sweep loop in src/grape.py (lines
172-179): as in src/history.py, but calling `common.decompose_sets`. -/
def reconcile [DecidableEq α] (history : List (HistoryEntry α))
    (identified_communities : List (Finset α)) : List (Finset α) :=
  match history.getLast? with
  | none => identified_communities
  | some last => decompose_sets last.communities identified_communities

/-- The `while True:` loop of `build_history` in src/grape.py (lines
166-194): identical to the src/history.py loop except that
reconciliation calls `common.decompose_sets`. -/
def buildHistoryAux [DecidableEq α] (find : ℚ → List (Finset α)) (num_languages : ℕ) :
    ℕ → List (HistoryEntry α) → ℚ → StratState → List ℚ →
    Option (Except BuildHistoryError (List (HistoryEntry α)) × List ℚ)
  | 0, _, _, _, _ => none
  | fuel + 1, history, parameter, strat, trace =>
    let trace' := trace ++ [parameter]
    let identified_communities := find parameter
    let communities := reconcile history identified_communities
    let num_communities := communities.length
    let history' := acceptEntry history parameter communities
    if stratShouldStop strat num_communities num_languages then
      some (.ok history', trace')
    else
      match stratUpdate1 strat parameter with
      | none => some (.error .typeError, trace')
      | some (parameter', strat') =>
          buildHistoryAux find num_languages fuel history' parameter' strat' trace'

/-- `build_history` (src/grape.py lines 131-194).  `nxGreedy` and
`nxLouvain` are the same external networkx detectors as in
`History.build_history`, but this file's adapters
(`GreedyModularity.find_communities`, `LouvainCommunities.find_communities`,
src/grape.py lines 31-44) call them with `resolution=int(resolution)`,
so the dispatched `find` truncates the parameter before the call. -/
def build_history [DecidableEq α] (nxGreedy nxLouvain : ℚ → List (Finset α))
    (num_languages : ℕ) (method strategy_name : String) (initial_value adjust_factor : ℚ)
    (fuel : ℕ) :
    Option (Except BuildHistoryError (List (HistoryEntry α)) × List ℚ) :=
  match (if method = "greedy" then some (fun r => nxGreedy ((pyInt r : ℤ) : ℚ))
         else if method = "louvain" then some (fun r => nxLouvain ((pyInt r : ℤ) : ℚ))
         else none) with
  | none => some (.error .unsupportedMethod, [])
  | some find =>
    match pickStrategy strategy_name initial_value adjust_factor num_languages with
    | none => some (.error .unsupportedStrategy, [])
    | some strat =>
        buildHistoryAux find num_languages fuel [] (stratInit strat) strat []

end GrapeMain

/-- The keyword arguments with which the Louvain adapter invokes
`nx.algorithms.community.louvain_communities`.  The networkx signature is
`louvain_communities(G, weight="weight", resolution=1, threshold=1e-07,
max_level=None, seed=None)`; a `seed` of `none` means the library draws a
fresh random generator for the call. -/
structure LouvainCallArgs where
  weight : String
  resolution : ℚ
  seed : Option ℕ
deriving DecidableEq

/-- The argument record built by `LouvainCommunities.find_communities`
(src/history.py lines 26-30): the call passes `weight=self.weight`
(`"weight"` as constructed by `build_history`) and `resolution`, and
omits `seed`, leaving it at the library default `None`. -/
def History.louvainCallArgs (resolution : ℚ) : LouvainCallArgs :=
  { weight := "weight", resolution := resolution, seed := none }

/-- The argument record built by `LouvainCommunities.find_communities`
(src/grape.py lines 40-44): as in src/history.py but with
`resolution=int(resolution)`, and again no `seed`. -/
def GrapeMain.louvainCallArgs (resolution : ℚ) : LouvainCallArgs :=
  { weight := "weight", resolution := ((pyInt resolution : ℤ) : ℚ), seed := none }

/-! ## Partitions

The detector contract (spec §4.2): `find_communities(resolution)` returns a
list of disjoint non-empty language sets covering all nodes. -/

/-- `cs` is a partition of `s`: all communities non-empty, pairwise
disjoint, and jointly covering `s`. -/
def IsPartition [DecidableEq α] (cs : List (Finset α)) (s : Finset α) : Prop :=
  (∀ c ∈ cs, c.Nonempty) ∧ cs.Pairwise (fun a b => Disjoint a b) ∧
    cs.foldr (· ∪ ·) ∅ = s

instance [DecidableEq α] (cs : List (Finset α)) (s : Finset α) :
    Decidable (IsPartition cs s) := by
  unfold IsPartition; infer_instance

theorem mem_listUnion [DecidableEq α] {cs : List (Finset α)} {x : α} :
    x ∈ cs.foldr (· ∪ ·) ∅ ↔ ∃ c ∈ cs, x ∈ c := by
  induction cs with
  | nil => simp
  | cons a as ih => simp [List.foldr_cons, Finset.mem_union, ih]

theorem IsPartition.subset_of_mem [DecidableEq α] {cs : List (Finset α)} {s : Finset α}
    (h : IsPartition cs s) {c : Finset α} (hc : c ∈ cs) : c ⊆ s := by
  intro x hx
  rw [← h.2.2]
  exact mem_listUnion.mpr ⟨c, hc, hx⟩

/-- The option produced for one `(set2, set1)` pair inside `split_sets`. -/
theorem piece_some [DecidableEq α] {s2 s1 x : Finset α}
    (h : (if (s2 ∩ s1).Nonempty then some (s2 ∩ s1) else none) = some x) :
    x = s2 ∩ s1 ∧ (s2 ∩ s1).Nonempty := by
  by_cases hne : (s2 ∩ s1).Nonempty
  · rw [if_pos hne] at h
    exact ⟨(Option.some_injective _ h).symm, hne⟩
  · rw [if_neg hne] at h
    cases h

/-- Membership in `split_sets`: every emitted clade is a non-empty
intersection of a clade of `list2` with a clade of `list1`. -/
theorem mem_split_sets [DecidableEq α] {list1 list2 : List (Finset α)} {c : Finset α} :
    c ∈ split_sets list1 list2 ↔
      ∃ s2 ∈ list2, ∃ s1 ∈ list1, c = s2 ∩ s1 ∧ c.Nonempty := by
  constructor
  · intro hc
    rw [split_sets, List.mem_flatten] at hc
    obtain ⟨l, hl, hcl⟩ := hc
    obtain ⟨s2, hs2, rfl⟩ := List.mem_map.mp hl
    obtain ⟨s1, hs1, hif⟩ := List.mem_filterMap.mp hcl
    obtain ⟨rfl, hne⟩ := piece_some hif
    exact ⟨s2, hs2, s1, hs1, rfl, hne⟩
  · rintro ⟨s2, hs2, s1, hs1, rfl, hne⟩
    rw [split_sets, List.mem_flatten]
    refine ⟨_, List.mem_map.mpr ⟨s2, hs2, rfl⟩, ?_⟩
    exact List.mem_filterMap.mpr ⟨s1, hs1, by rw [if_pos hne]⟩

/-- Two members of a pairwise-disjoint family that both contain a
non-empty set are equal. -/
theorem eq_of_superset_of_pairwiseDisjoint [DecidableEq α] {cs : List (Finset α)}
    (hdis : cs.Pairwise (fun a b => Disjoint a b)) {c d d' : Finset α}
    (hd : d ∈ cs) (hd' : d' ∈ cs) (hne : c.Nonempty) (h1 : c ⊆ d) (h2 : c ⊆ d') :
    d = d' := by
  by_contra hdd
  have hdisj : Disjoint d d' :=
    hdis.forall (fun a b h => h.symm) hd hd' hdd
  obtain ⟨x, hx⟩ := hne
  exact (Finset.disjoint_left.mp hdisj (h1 hx)) (h2 hx)

/-- `split_sets` of two partitions of the same set is again a partition:
the common refinement. -/
theorem IsPartition.split_sets [DecidableEq α] {list1 list2 : List (Finset α)}
    {s : Finset α} (h1 : IsPartition list1 s) (h2 : IsPartition list2 s) :
    IsPartition (split_sets list1 list2) s := by
  obtain ⟨hne1, hdis1, hcov1⟩ := h1
  obtain ⟨hne2, hdis2, hcov2⟩ := h2
  refine ⟨?_, ?_, ?_⟩
  · intro c hc
    obtain ⟨s2, _, s1, _, rfl, hcne⟩ := mem_split_sets.mp hc
    exact hcne
  · rw [Grape.split_sets, List.pairwise_flatten]
    constructor
    · intro l hl
      obtain ⟨s2, _, rfl⟩ := List.mem_map.mp hl
      rw [List.pairwise_filterMap]
      refine hdis1.imp_of_mem ?_
      intro a b _ _ hab x hx y hy
      rw [Option.mem_def] at hx hy
      obtain ⟨rfl, _⟩ := piece_some hx
      obtain ⟨rfl, _⟩ := piece_some hy
      exact hab.mono Finset.inter_subset_right Finset.inter_subset_right
    · rw [List.pairwise_map]
      refine hdis2.imp_of_mem ?_
      intro s2 s2' _ _ hab x hx y hy
      obtain ⟨a, _, ha⟩ := List.mem_filterMap.mp hx
      obtain ⟨b, _, hb⟩ := List.mem_filterMap.mp hy
      obtain ⟨rfl, _⟩ := piece_some ha
      obtain ⟨rfl, _⟩ := piece_some hb
      exact hab.mono Finset.inter_subset_left Finset.inter_subset_left
  · ext x
    rw [mem_listUnion]
    constructor
    · rintro ⟨c, hc, hx⟩
      obtain ⟨s2, hs2, s1, _, rfl, _⟩ := mem_split_sets.mp hc
      rw [← hcov2]
      exact mem_listUnion.mpr ⟨s2, hs2, (Finset.mem_inter.mp hx).1⟩
    · intro hx
      obtain ⟨s2, hs2, hx2⟩ := mem_listUnion.mp (by rw [hcov2]; exact hx)
      obtain ⟨s1, hs1, hx1⟩ := mem_listUnion.mp (by rw [hcov1]; exact hx)
      refine ⟨s2 ∩ s1, mem_split_sets.mpr ⟨s2, hs2, s1, hs1, rfl, ⟨x, ?_⟩⟩, ?_⟩ <;>
        simp [hx1, hx2]

/-- A partition of `s` has at most `s.card` parts. -/
theorem IsPartition.length_le_card [DecidableEq α] {cs : List (Finset α)} {s : Finset α}
    (h : IsPartition cs s) : cs.length ≤ s.card := by
  induction cs generalizing s with
  | nil => simp
  | cons a as ih =>
    obtain ⟨hne, hdis, hcov⟩ := h
    rw [List.pairwise_cons] at hdis
    have hdisj : Disjoint a (as.foldr (· ∪ ·) ∅) := by
      rw [Finset.disjoint_right]
      intro x hx hxa
      obtain ⟨c, hc, hxc⟩ := mem_listUnion.mp hx
      exact Finset.disjoint_left.mp (hdis.1 c hc) hxa hxc
    have htail : IsPartition as (as.foldr (· ∪ ·) ∅) :=
      ⟨fun c hc => hne c (List.mem_cons_of_mem a hc), hdis.2, rfl⟩
    have hcard : s.card = a.card + (as.foldr (· ∪ ·) ∅).card := by
      rw [← hcov]
      exact Finset.card_union_of_disjoint hdisj
    have h1 : 1 ≤ a.card := Finset.card_pos.mpr (hne a (List.mem_cons_self a as))
    have h2 := ih htail
    simp only [List.length_cons]
    omega

/-- If a partition of `s` has exactly `s.card` parts, every part is a
singleton. -/
theorem IsPartition.all_singleton [DecidableEq α] {cs : List (Finset α)} {s : Finset α}
    (h : IsPartition cs s) (hlen : cs.length = s.card) :
    ∀ c ∈ cs, ∃ x, c = {x} := by
  induction cs generalizing s with
  | nil => simp
  | cons a as ih =>
    obtain ⟨hne, hdis, hcov⟩ := h
    rw [List.pairwise_cons] at hdis
    have hdisj : Disjoint a (as.foldr (· ∪ ·) ∅) := by
      rw [Finset.disjoint_right]
      intro x hx hxa
      obtain ⟨c, hc, hxc⟩ := mem_listUnion.mp hx
      exact Finset.disjoint_left.mp (hdis.1 c hc) hxa hxc
    have htail : IsPartition as (as.foldr (· ∪ ·) ∅) :=
      ⟨fun c hc => hne c (List.mem_cons_of_mem a hc), hdis.2, rfl⟩
    have hcard : s.card = a.card + (as.foldr (· ∪ ·) ∅).card := by
      rw [← hcov]
      exact Finset.card_union_of_disjoint hdisj
    have h1 : 1 ≤ a.card := Finset.card_pos.mpr (hne a (List.mem_cons_self a as))
    have h2 := htail.length_le_card
    simp only [List.length_cons] at hlen
    have hacard : a.card = 1 := by omega
    have htlen : as.length = (as.foldr (· ∪ ·) ∅).card := by omega
    intro c hc
    rcases List.mem_cons.mp hc with rfl | hc'
    · exact Finset.card_eq_one.mp hacard
    · exact ih htail htlen c hc'

/-! ## Invariants of the resolution-sweep loop -/

/-- Accepted entries have strictly increasing community counts. -/
def CountChain (h : List (HistoryEntry α)) : Prop :=
  h.Chain' (fun a b => a.number_of_communities < b.number_of_communities)

/-- Every clade of the later of two adjacent accepted entries is contained
in some clade of the earlier one. -/
def RefineChain (h : List (HistoryEntry α)) : Prop :=
  h.Chain' (fun e e' => ∀ c ∈ e'.communities, ∃ d ∈ e.communities, c ⊆ d)

theorem chain'_append_singleton {R : β → β → Prop} {l : List β} {e : β}
    (hc : l.Chain' R) (hl : ∀ last, l.getLast? = some last → R last e) :
    (l ++ [e]).Chain' R := by
  rw [List.chain'_append]
  refine ⟨hc, List.chain'_singleton e, ?_⟩
  intro x hx y hy
  simp only [List.head?_cons, Option.mem_def, Option.some.injEq] at hy
  subst hy
  exact hl x hx

theorem getLast?_mem_self {l : List β} {x : β} (h : l.getLast? = some x) : x ∈ l := by
  obtain ⟨hne, heq⟩ := List.mem_getLast?_eq_getLast (show x ∈ l.getLast? from h)
  subst heq
  exact List.getLast_mem hne

/-- `acceptEntry` preserves the strict-increase invariant
unconditionally: an entry is appended only when its count strictly
exceeds the last accepted count. -/
theorem countChain_acceptEntry {history : List (HistoryEntry α)} {parameter : ℚ}
    {communities : List (Finset α)} (hcc : CountChain history) :
    CountChain (acceptEntry history parameter communities) := by
  unfold acceptEntry
  cases hlast : history.getLast? with
  | none =>
    obtain rfl : history = [] := List.getLast?_eq_none_iff.mp hlast
    exact List.chain'_singleton _
  | some last =>
    show CountChain (if communities.length > last.number_of_communities then
      history ++ [⟨parameter, communities⟩] else history)
    by_cases hgt : communities.length > last.number_of_communities
    · rw [if_pos hgt]
      refine chain'_append_singleton hcc (fun l hl => ?_)
      rw [hlast] at hl
      cases hl
      exact hgt
    · rw [if_neg hgt]
      exact hcc

/-- The strict-increase invariant is preserved by the loop of
`build_history` (src/history.py): whenever the loop terminates normally,
the returned history has strictly increasing `number_of_communities`. -/
theorem buildHistoryAux_countChain [DecidableEq α] {find : ℚ → List (Finset α)}
    {num_languages : ℕ} :
    ∀ (fuel : ℕ) (history : List (HistoryEntry α)) (parameter : ℚ)
      (strat : StratState) (trace : List ℚ)
      (h : List (HistoryEntry α)) (tr : List ℚ),
      History.buildHistoryAux find num_languages fuel history parameter strat trace
        = some (.ok h, tr) →
      CountChain history → CountChain h := by
  intro fuel
  induction fuel with
  | zero =>
    intro history parameter strat trace h tr hrun _
    simp [History.buildHistoryAux] at hrun
  | succ fuel ih =>
    intro history parameter strat trace h tr hrun hcc
    rw [History.buildHistoryAux] at hrun
    by_cases hstop : stratShouldStop strat
        (History.reconcile history (find parameter)).length num_languages = true
    · rw [if_pos hstop] at hrun
      simp only [Option.some.injEq, Prod.mk.injEq, Except.ok.injEq] at hrun
      obtain ⟨rfl, rfl⟩ := hrun
      exact countChain_acceptEntry hcc
    · rw [if_neg hstop] at hrun
      cases hupd : stratUpdate1 strat parameter with
      | none =>
        rw [hupd] at hrun
        simp at hrun
      | some p =>
        rw [hupd] at hrun
        obtain ⟨parameter', strat'⟩ := p
        exact ih _ _ _ _ _ _ hrun (countChain_acceptEntry hcc)

/-- Reconciliation of a valid detector output yields a partition of the
node set. -/
theorem reconcile_isPartition [DecidableEq α] {nodes : Finset α}
    {history : List (HistoryEntry α)} {identified : List (Finset α)}
    (hhist : ∀ e ∈ history, IsPartition e.communities nodes)
    (hid : IsPartition identified nodes) :
    IsPartition (History.reconcile history identified) nodes := by
  unfold History.reconcile
  cases hlast : history.getLast? with
  | none => exact hid
  | some last => exact (hhist last (getLast?_mem_self hlast)).split_sets hid

/-- Against a non-empty history, every reconciled clade is contained in a
clade of the last accepted entry. -/
theorem reconcile_refines [DecidableEq α] {history : List (HistoryEntry α)}
    {identified : List (Finset α)} {last : HistoryEntry α}
    (hlast : history.getLast? = some last) :
    ∀ c ∈ History.reconcile history identified, ∃ d ∈ last.communities, c ⊆ d := by
  intro c hc
  unfold History.reconcile at hc
  rw [hlast] at hc
  obtain ⟨s2, _, s1, hs1, rfl, _⟩ := mem_split_sets.mp hc
  exact ⟨s1, hs1, Finset.inter_subset_right⟩

theorem refineChain_acceptEntry [DecidableEq α] {history : List (HistoryEntry α)}
    {parameter : ℚ} {communities : List (Finset α)}
    (hrc : RefineChain history)
    (href : ∀ last, history.getLast? = some last →
      ∀ c ∈ communities, ∃ d ∈ last.communities, c ⊆ d) :
    RefineChain (acceptEntry history parameter communities) := by
  unfold acceptEntry
  cases hlast : history.getLast? with
  | none =>
    obtain rfl : history = [] := List.getLast?_eq_none_iff.mp hlast
    exact List.chain'_singleton _
  | some last =>
    show RefineChain (if communities.length > last.number_of_communities then
      history ++ [⟨parameter, communities⟩] else history)
    by_cases hgt : communities.length > last.number_of_communities
    · rw [if_pos hgt]
      refine chain'_append_singleton hrc (fun l hl => ?_)
      rw [hlast] at hl
      cases hl
      exact href _ hlast
    · rw [if_neg hgt]
      exact hrc

theorem partitions_acceptEntry [DecidableEq α] {nodes : Finset α}
    {history : List (HistoryEntry α)} {parameter : ℚ} {communities : List (Finset α)}
    (hhist : ∀ e ∈ history, IsPartition e.communities nodes)
    (hpart : IsPartition communities nodes) :
    ∀ e ∈ acceptEntry history parameter communities,
      IsPartition e.communities nodes := by
  unfold acceptEntry
  cases hlast : history.getLast? with
  | none =>
    obtain rfl : history = [] := List.getLast?_eq_none_iff.mp hlast
    intro e he
    have : e ∈ ([] : List (HistoryEntry α)) ++ [⟨parameter, communities⟩] := he
    simp only [List.nil_append, List.mem_singleton] at this
    subst this
    exact hpart
  | some last =>
    show ∀ e ∈ (if communities.length > last.number_of_communities then
      history ++ [⟨parameter, communities⟩] else history), IsPartition e.communities nodes
    by_cases hgt : communities.length > last.number_of_communities
    · rw [if_pos hgt]
      intro e he
      rcases List.mem_append.mp he with he | he
      · exact hhist e he
      · rw [List.mem_singleton] at he
        subst he
        exact hpart
    · rw [if_neg hgt]
      exact hhist

theorem getLast?_acceptEntry {history : List (HistoryEntry α)} {parameter : ℚ}
    {communities : List (Finset α)} :
    (acceptEntry history parameter communities).getLast?
        = some ⟨parameter, communities⟩ ∨
      (acceptEntry history parameter communities = history ∧
        ∃ last, history.getLast? = some last ∧
          ¬ communities.length > last.number_of_communities) := by
  unfold acceptEntry
  cases hlast : history.getLast? with
  | none =>
    left
    exact List.getLast?_concat _
  | some last =>
    show (if communities.length > last.number_of_communities then
        history ++ [⟨parameter, communities⟩] else history).getLast?
          = some ⟨parameter, communities⟩ ∨
      ((if communities.length > last.number_of_communities then
        history ++ [⟨parameter, communities⟩] else history) = history ∧
        ∃ l, some last = some l ∧ ¬ communities.length > l.number_of_communities)
    by_cases hgt : communities.length > last.number_of_communities
    · left
      rw [if_pos hgt]
      exact List.getLast?_concat _
    · right
      rw [if_neg hgt]
      exact ⟨rfl, last, rfl, hgt⟩

/-- Combined loop invariant for `build_history` (src/history.py) under
the detector contract: all accepted entries are partitions of the node
set, adjacent entries refine, and the loop only returns once the
reconciled count has reached `num_languages`, so the final entry's count
is at least `num_languages`. -/
theorem buildHistoryAux_ok_inv [DecidableEq α] {nodes : Finset α}
    {find : ℚ → List (Finset α)} {num_languages : ℕ}
    (hfind : ∀ r, IsPartition (find r) nodes) :
    ∀ (fuel : ℕ) (history : List (HistoryEntry α)) (parameter : ℚ)
      (strat : StratState) (trace : List ℚ)
      (h : List (HistoryEntry α)) (tr : List ℚ),
      History.buildHistoryAux find num_languages fuel history parameter strat trace
        = some (.ok h, tr) →
      (∀ e ∈ history, IsPartition e.communities nodes) →
      RefineChain history →
      (∀ e ∈ h, IsPartition e.communities nodes) ∧ RefineChain h ∧
        ∃ last, h.getLast? = some last ∧
          num_languages ≤ last.number_of_communities := by
  intro fuel
  induction fuel with
  | zero =>
    intro history parameter strat trace h tr hrun _ _
    simp [History.buildHistoryAux] at hrun
  | succ fuel ih =>
    intro history parameter strat trace h tr hrun hparts hrc
    rw [History.buildHistoryAux] at hrun
    have hpart : IsPartition (History.reconcile history (find parameter)) nodes :=
      reconcile_isPartition hparts (hfind parameter)
    have hparts' : ∀ e ∈ acceptEntry history parameter
        (History.reconcile history (find parameter)),
        IsPartition e.communities nodes := partitions_acceptEntry hparts hpart
    have hrc' : RefineChain
        (acceptEntry history parameter (History.reconcile history (find parameter))) :=
      refineChain_acceptEntry hrc (fun last hlast => reconcile_refines hlast)
    by_cases hstop : stratShouldStop strat
        (History.reconcile history (find parameter)).length num_languages = true
    · rw [if_pos hstop] at hrun
      simp only [Option.some.injEq, Prod.mk.injEq, Except.ok.injEq] at hrun
      obtain ⟨rfl, rfl⟩ := hrun
      have hn : (History.reconcile history (find parameter)).length = num_languages := by
        simpa [stratShouldStop] using hstop
      refine ⟨hparts', hrc', ?_⟩
      rcases @getLast?_acceptEntry _ history parameter
          (History.reconcile history (find parameter)) with
        hl | ⟨heq, last, hlast, hgt⟩
      · exact ⟨_, hl, by simp [HistoryEntry.number_of_communities, hn]⟩
      · rw [heq]
        refine ⟨last, hlast, ?_⟩
        simp only [HistoryEntry.number_of_communities] at hgt ⊢
        omega
    · rw [if_neg hstop] at hrun
      cases hupd : stratUpdate1 strat parameter with
      | none =>
        rw [hupd] at hrun
        simp at hrun
      | some p =>
        rw [hupd] at hrun
        obtain ⟨parameter', strat'⟩ := p
        exact ih _ _ _ _ _ _ hrun hparts' hrc'

/-- Elimination for a successful `build_history` run: recover the
dispatched detector and the initial strategy state. -/
theorem build_history_ok_elim [DecidableEq α]
    {gf lf : ℚ → List (Finset α)} {num_languages : ℕ} {method strategy : String}
    {initial_value adjust_factor : ℚ} {fuel : ℕ}
    {h : List (HistoryEntry α)} {tr : List ℚ}
    (hrun : History.build_history gf lf num_languages method strategy
        initial_value adjust_factor fuel = some (.ok h, tr)) :
    ∃ (find : ℚ → List (Finset α)) (strat : StratState),
      (find = gf ∨ find = lf) ∧
      History.buildHistoryAux find num_languages fuel [] (stratInit strat) strat []
        = some (.ok h, tr) := by
  rw [History.build_history] at hrun
  by_cases hg : method = "greedy"
  · rw [if_pos hg] at hrun
    cases hps : pickStrategy strategy initial_value adjust_factor num_languages with
    | none =>
      rw [hps] at hrun
      have hrun' : (some (.error .unsupportedStrategy, []) :
          Option (Except BuildHistoryError (List (HistoryEntry α)) × List ℚ))
            = some (.ok h, tr) := hrun
      simp at hrun'
    | some strat =>
      rw [hps] at hrun
      exact ⟨gf, strat, Or.inl rfl, hrun⟩
  · rw [if_neg hg] at hrun
    by_cases hv : method = "louvain"
    · rw [if_pos hv] at hrun
      cases hps : pickStrategy strategy initial_value adjust_factor num_languages with
      | none =>
        rw [hps] at hrun
        have hrun' : (some (.error .unsupportedStrategy, []) :
            Option (Except BuildHistoryError (List (HistoryEntry α)) × List ℚ))
              = some (.ok h, tr) := hrun
        simp at hrun'
      | some strat =>
        rw [hps] at hrun
        exact ⟨lf, strat, Or.inr rfl, hrun⟩
    · rw [if_neg hv] at hrun
      have hrun' : (some (.error .unsupportedMethod, []) :
          Option (Except BuildHistoryError (List (HistoryEntry α)) × List ℚ))
            = some (.ok h, tr) := hrun
      simp at hrun'

/-- C1: for every history returned by `build_history` (src/history.py),
under the precondition that the community detector returns a partition
of the graph's nodes at every call, every clade of an accepted entry
`i+1` is a subset of exactly one clade of the adjacent accepted entry
`i`: the reconciliation step `split_sets` replaces each newly identified
community by its non-empty intersections with the clades of the previous
accepted entry, so accepted partitions only split, never merge. -/
theorem C1_monotonic_refinement [DecidableEq α] {nodes : Finset α}
    (gf lf : ℚ → List (Finset α)) (num_languages : ℕ) (method strategy : String)
    (initial_value adjust_factor : ℚ) (fuel : ℕ)
    (h : List (HistoryEntry α)) (tr : List ℚ)
    (hgf : ∀ r, IsPartition (gf r) nodes) (hlf : ∀ r, IsPartition (lf r) nodes)
    (hrun : History.build_history gf lf num_languages method strategy
        initial_value adjust_factor fuel = some (.ok h, tr)) :
    ∀ (i : ℕ) (hi : i + 1 < h.length),
      ∀ c ∈ (h.get ⟨i + 1, hi⟩).communities,
        ∃! d, d ∈ (h.get ⟨i, Nat.lt_of_succ_lt hi⟩).communities ∧ c ⊆ d := by
  obtain ⟨find, strat, hf, hrun'⟩ := build_history_ok_elim hrun
  have hfind : ∀ r, IsPartition (find r) nodes := by
    rcases hf with rfl | rfl
    exacts [hgf, hlf]
  obtain ⟨hparts, hrc, -⟩ :=
    buildHistoryAux_ok_inv hfind fuel [] (stratInit strat) strat [] h tr hrun'
      (by simp) List.chain'_nil
  intro i hi c hc
  have hrel := (List.chain'_iff_get.mp hrc) i (by omega)
  obtain ⟨d, hd, hsub⟩ := hrel c hc
  have hpartI : IsPartition (h.get ⟨i, Nat.lt_of_succ_lt hi⟩).communities nodes :=
    hparts _ (List.get_mem h i _)
  have hpartI1 : IsPartition (h.get ⟨i + 1, hi⟩).communities nodes :=
    hparts _ (List.get_mem h (i + 1) hi)
  have hcne : c.Nonempty := hpartI1.1 c hc
  refine ⟨d, ⟨hd, hsub⟩, ?_⟩
  rintro d' ⟨hd', hsub'⟩
  exact eq_of_superset_of_pairwiseDisjoint hpartI.2.1 hd' hd hcne hsub' hsub

/-- C2: when `build_history` (src/history.py) terminates, with
`num_languages` equal to the number of graph nodes and a detector that
always returns a partition of the node set, the communities of the last
history entry are exactly the singleton sets of the languages, one per
language: the loop stops when the reconciled count equals
`num_languages`, which for a partition of the node set forces every
clade to be a singleton. -/
theorem C2_terminal_singletons [DecidableEq α] {nodes : Finset α}
    (gf lf : ℚ → List (Finset α)) (num_languages : ℕ) (method strategy : String)
    (initial_value adjust_factor : ℚ) (fuel : ℕ)
    (h : List (HistoryEntry α)) (tr : List ℚ)
    (hgf : ∀ r, IsPartition (gf r) nodes) (hlf : ∀ r, IsPartition (lf r) nodes)
    (hcard : num_languages = nodes.card)
    (hrun : History.build_history gf lf num_languages method strategy
        initial_value adjust_factor fuel = some (.ok h, tr)) :
    ∃ last, h.getLast? = some last ∧
      (∀ c ∈ last.communities, ∃ x ∈ nodes, c = {x}) ∧
      (∀ x ∈ nodes, last.communities.count {x} = 1) := by
  obtain ⟨find, strat, hf, hrun'⟩ := build_history_ok_elim hrun
  have hfind : ∀ r, IsPartition (find r) nodes := by
    rcases hf with rfl | rfl
    exacts [hgf, hlf]
  obtain ⟨hparts, -, last, hlast, hcount⟩ :=
    buildHistoryAux_ok_inv hfind fuel [] (stratInit strat) strat [] h tr hrun'
      (by simp) List.chain'_nil
  have hpart : IsPartition last.communities nodes := hparts _ (getLast?_mem_self hlast)
  have hle : last.communities.length ≤ nodes.card := hpart.length_le_card
  have hlen : last.communities.length = nodes.card := by
    simp only [HistoryEntry.number_of_communities] at hcount
    omega
  have hsing := hpart.all_singleton hlen
  refine ⟨last, hlast, ?_, ?_⟩
  · intro c hc
    obtain ⟨x, rfl⟩ := hsing c hc
    exact ⟨x, Finset.singleton_subset_iff.mp (hpart.subset_of_mem hc), rfl⟩
  · have hnodup : last.communities.Nodup := by
      refine List.Pairwise.imp_of_mem ?_ hpart.2.1
      intro a b ha _ hdis heq
      subst heq
      rw [disjoint_self] at hdis
      exact Finset.not_nonempty_empty (hdis ▸ hpart.1 a ha)
    intro x hx
    obtain ⟨c, hc, hxc⟩ := mem_listUnion.mp (hpart.2.2.symm ▸ hx)
    obtain ⟨y, rfl⟩ := hsing c hc
    obtain rfl := Finset.mem_singleton.mp hxc
    exact List.count_eq_one_of_mem hnodup hc

/-- C5: in `build_history` (src/history.py), an entry is appended iff the
history is empty or the reconciled count strictly exceeds the last
accepted entry's; consequently `number_of_communities` is strictly
increasing across the entries of every returned history. -/
theorem C5_strictly_increasing_counts [DecidableEq α]
    (gf lf : ℚ → List (Finset α)) (num_languages : ℕ) (method strategy : String)
    (initial_value adjust_factor : ℚ) (fuel : ℕ)
    (h : List (HistoryEntry α)) (tr : List ℚ)
    (hrun : History.build_history gf lf num_languages method strategy
        initial_value adjust_factor fuel = some (.ok h, tr)) :
    h.Chain' (fun a b => a.number_of_communities < b.number_of_communities) := by
  obtain ⟨find, strat, -, hrun'⟩ := build_history_ok_elim hrun
  exact buildHistoryAux_countChain fuel [] (stratInit strat) strat [] h tr hrun'
    List.chain'_nil

/-- A small concrete detector: one community at resolution `0`, two
singleton communities at any other resolution. -/
def sampleFind (r : ℚ) : List (Finset ℕ) :=
  if r = 0 then [{1, 2}] else [{1}, {2}]

theorem sampleFind_isPartition : ∀ r, IsPartition (sampleFind r) {1, 2} := by
  intro r
  unfold sampleFind
  by_cases hr : r = 0
  · rw [if_pos hr]
    decide
  · rw [if_neg hr]
    decide

/-- Concrete two-iteration sweep used by the history witnesses. -/
theorem sampleSweep_eval :
    History.build_history sampleFind sampleFind 2 "greedy" "fixed" 0 0 2
      = some (.ok [⟨0, [({1, 2} : Finset ℕ)]⟩, ⟨1/10, [{1}, {2}]⟩], [0, 1/10]) := by
  have hsplit : split_sets [({1, 2} : Finset ℕ)] [{1}, {2}] = [{1}, {2}] := by decide
  norm_num [History.build_history, History.buildHistoryAux, History.reconcile,
    acceptEntry, pickStrategy, stratInit, stratShouldStop, stratUpdate1,
    sampleFind, hsplit, HistoryEntry.number_of_communities]

theorem C1_monotonic_refinement_witness :
    ∃! d, d ∈ [({1, 2} : Finset ℕ)] ∧ {1} ⊆ d :=
  @C1_monotonic_refinement ℕ _ {1, 2} sampleFind sampleFind 2 "greedy" "fixed"
    0 0 2 [⟨0, [{1, 2}]⟩, ⟨1/10, [{1}, {2}]⟩] [0, 1/10]
    sampleFind_isPartition sampleFind_isPartition sampleSweep_eval
    0 (by decide) {1} (by decide)

theorem C2_terminal_singletons_witness :
    ∃ last, ([⟨0, [{1, 2}]⟩, ⟨1/10, [{1}, {2}]⟩] :
        List (HistoryEntry ℕ)).getLast? = some last ∧
      (∀ c ∈ last.communities, ∃ x ∈ ({1, 2} : Finset ℕ), c = {x}) ∧
      (∀ x ∈ ({1, 2} : Finset ℕ), last.communities.count {x} = 1) :=
  @C2_terminal_singletons ℕ _ {1, 2} sampleFind sampleFind 2 "greedy" "fixed"
    0 0 2 [⟨0, [{1, 2}]⟩, ⟨1/10, [{1}, {2}]⟩] [0, 1/10]
    sampleFind_isPartition sampleFind_isPartition (by decide) sampleSweep_eval

theorem C5_strictly_increasing_counts_witness :
    ([⟨0, [{1, 2}]⟩, ⟨1/10, [{1}, {2}]⟩] : List (HistoryEntry ℕ)).Chain'
      (fun a b => a.number_of_communities < b.number_of_communities) :=
  C5_strictly_increasing_counts sampleFind sampleFind 2 "greedy" "fixed"
    0 0 2 [⟨0, [{1, 2}]⟩, ⟨1/10, [{1}, {2}]⟩] [0, 1/10] sampleSweep_eval

/-- C3 (code-bug evidence): with strategy `"adaptive"`, when the stop
condition fails on the first iteration, `build_history` (src/history.py)
raises `TypeError` instead of performing the adaptive feedback rule:
line 216 calls `strategy.update(parameter)` with a single positional
argument, but `AdaptiveDynamicAdjustmentStrategy.update` (lines 92-111)
requires both `current_value` and `current_communities`. -/
theorem C3_adaptive_update_crashes [DecidableEq α]
    (gf lf : ℚ → List (Finset α)) (num_languages : ℕ)
    (initial_value adjust_factor : ℚ) (fuel : ℕ)
    (hg : (gf initial_value).length ≠ num_languages)
    (hl : (lf initial_value).length ≠ num_languages) :
    History.build_history gf lf num_languages "greedy" "adaptive"
        initial_value adjust_factor (fuel + 1)
      = some (.error .typeError, [initial_value]) ∧
    History.build_history gf lf num_languages "louvain" "adaptive"
        initial_value adjust_factor (fuel + 1)
      = some (.error .typeError, [initial_value]) := by
  have hps : pickStrategy "adaptive" initial_value adjust_factor num_languages
      = some (.adaptiveDynamic initial_value adjust_factor num_languages
          initial_value none) := rfl
  constructor
  · rw [History.build_history, if_pos rfl, hps]
    show History.buildHistoryAux gf num_languages (fuel + 1) [] initial_value
        (.adaptiveDynamic initial_value adjust_factor num_languages initial_value none)
        [] = some (.error .typeError, [initial_value])
    rw [History.buildHistoryAux]
    simp [History.reconcile, stratShouldStop, stratUpdate1, hg]
  · rw [History.build_history, if_neg (by decide), if_pos rfl, hps]
    show History.buildHistoryAux lf num_languages (fuel + 1) [] initial_value
        (.adaptiveDynamic initial_value adjust_factor num_languages initial_value none)
        [] = some (.error .typeError, [initial_value])
    rw [History.buildHistoryAux]
    simp [History.reconcile, stratShouldStop, stratUpdate1, hl]

theorem C3_adaptive_update_crashes_witness :
    History.build_history (fun _ => ([] : List (Finset ℕ))) (fun _ => [])
        1 "greedy" "adaptive" 0 0 1
      = some (.error .typeError, [0]) ∧
    History.build_history (fun _ => ([] : List (Finset ℕ))) (fun _ => [])
        1 "louvain" "adaptive" 0 0 1
      = some (.error .typeError, [0]) :=
  C3_adaptive_update_crashes (fun _ => []) (fun _ => []) 1 0 0 0
    (by decide) (by decide)

/-- With the dynamic strategy at value 0, every iteration of the sweep
passes resolution 0 to the detector and keeps the state at 0. -/
theorem buildHistoryAux_dynamic_zero [DecidableEq α] {find : ℚ → List (Finset α)}
    {num_languages : ℕ} {adjust_factor : ℚ} :
    ∀ (fuel : ℕ) (history : List (HistoryEntry α)) (trace : List ℚ)
      (res : Except BuildHistoryError (List (HistoryEntry α))) (tr : List ℚ),
      History.buildHistoryAux find num_languages fuel history 0
          (.dynamicAdjustment adjust_factor 0) trace = some (res, tr) →
      (∀ q ∈ trace, q = 0) → ∀ q ∈ tr, q = 0 := by
  intro fuel
  induction fuel with
  | zero =>
    intro history trace res tr hrun _
    simp [History.buildHistoryAux] at hrun
  | succ fuel ih =>
    intro history trace res tr hrun htr
    rw [History.buildHistoryAux] at hrun
    have htr' : ∀ q ∈ trace ++ [(0 : ℚ)], q = 0 := by
      intro q hq
      rcases List.mem_append.mp hq with hq | hq
      · exact htr q hq
      · simpa using hq
    by_cases hstop : stratShouldStop (.dynamicAdjustment adjust_factor 0)
        (History.reconcile history (find 0)).length num_languages = true
    · rw [if_pos hstop] at hrun
      simp only [Option.some.injEq, Prod.mk.injEq] at hrun
      obtain ⟨-, rfl⟩ := hrun
      exact htr'
    · rw [if_neg hstop] at hrun
      have hupd : stratUpdate1 (.dynamicAdjustment adjust_factor 0) 0
          = some (0, .dynamicAdjustment adjust_factor 0) := by
        simp [stratUpdate1]
      rw [hupd] at hrun
      exact ih _ _ _ _ hrun htr'

/-- C10: zero is a fixpoint of `DynamicAdjustmentStrategy.update`
(`self.value += self.adjust_factor * self.value` leaves 0 at 0), so
`build_history` (src/history.py) invoked with strategy `"dynamic"` and
the default `initial_value = 0.0` evaluates the detector at resolution 0
on every iteration — the parameter never changes, regardless of
`adjust_factor`. -/
theorem C10_dynamic_zero_fixpoint [DecidableEq α]
    (gf lf : ℚ → List (Finset α)) :
    (∀ adjust_factor current_value : ℚ,
        stratUpdate1 (.dynamicAdjustment adjust_factor 0) current_value
          = some (0, .dynamicAdjustment adjust_factor 0)) ∧
    (∀ (num_languages : ℕ) (method : String) (adjust_factor : ℚ) (fuel : ℕ)
        (res : Except BuildHistoryError (List (HistoryEntry α))) (tr : List ℚ),
        History.build_history gf lf num_languages method "dynamic" 0 adjust_factor
            fuel = some (res, tr) →
        ∀ q ∈ tr, q = 0) := by
  constructor
  · intro adjust_factor current_value
    simp [stratUpdate1]
  · intro num_languages method adjust_factor fuel res tr hrun
    rw [History.build_history] at hrun
    by_cases hg : method = "greedy"
    · rw [if_pos hg] at hrun
      have hps : pickStrategy "dynamic" 0 adjust_factor num_languages
          = some (.dynamicAdjustment adjust_factor 0) := rfl
      rw [hps] at hrun
      exact buildHistoryAux_dynamic_zero fuel [] [] res tr hrun (by simp)
    · rw [if_neg hg] at hrun
      by_cases hv : method = "louvain"
      · rw [if_pos hv] at hrun
        have hps : pickStrategy "dynamic" 0 adjust_factor num_languages
            = some (.dynamicAdjustment adjust_factor 0) := rfl
        rw [hps] at hrun
        exact buildHistoryAux_dynamic_zero fuel [] [] res tr hrun (by simp)
      · rw [if_neg hv] at hrun
        have hrun' : (some (.error .unsupportedMethod, []) :
            Option (Except BuildHistoryError (List (HistoryEntry α)) × List ℚ))
              = some (res, tr) := hrun
        simp only [Option.some.injEq, Prod.mk.injEq] at hrun'
        obtain ⟨-, rfl⟩ := hrun'
        simp

theorem C10_dynamic_zero_fixpoint_witness : ∀ q ∈ ([0] : List ℚ), q = 0 :=
  (C10_dynamic_zero_fixpoint (fun _ => [({1} : Finset ℕ)]) (fun _ => [{1}])).2
    1 "greedy" 1 1 (.ok [⟨0, [{1}]⟩]) [0] (by decide)

/-- C4 (amended): the two `build_history` variants coincide when the run
stops on its first iteration and the initial resolution is unchanged by
`int()` truncation; in general they differ, because src/grape.py's
adapters truncate every resolution to `int` before the detector call. -/
theorem C4_first_iteration_agreement [DecidableEq α]
    (nxg nxl : ℚ → List (Finset α)) (num_languages : ℕ)
    (method strategy : String) (initial_value adjust_factor : ℚ) (fuel : ℕ)
    (strat : StratState)
    (hm : method = "greedy" ∨ method = "louvain")
    (hs : pickStrategy strategy initial_value adjust_factor num_languages
        = some strat)
    (hp : ((pyInt (stratInit strat) : ℤ) : ℚ) = stratInit strat)
    (hstop : ((if method = "greedy" then nxg else nxl) (stratInit strat)).length
        = num_languages) :
    History.build_history nxg nxl num_languages method strategy initial_value
        adjust_factor (fuel + 1)
      = GrapeMain.build_history nxg nxl num_languages method strategy initial_value
        adjust_factor (fuel + 1) := by
  rcases hm with rfl | rfl
  · rw [if_pos rfl] at hstop
    rw [History.build_history, GrapeMain.build_history, if_pos rfl, hs]
    show History.buildHistoryAux nxg num_languages (fuel + 1) [] (stratInit strat)
        strat []
      = GrapeMain.buildHistoryAux (fun r => nxg ((pyInt r : ℤ) : ℚ)) num_languages
        (fuel + 1) [] (stratInit strat) strat []
    rw [History.buildHistoryAux, GrapeMain.buildHistoryAux, hp]
    have hr1 : History.reconcile ([] : List (HistoryEntry α)) (nxg (stratInit strat))
        = nxg (stratInit strat) := rfl
    have hr2 : GrapeMain.reconcile ([] : List (HistoryEntry α)) (nxg (stratInit strat))
        = nxg (stratInit strat) := rfl
    rw [hr1, hr2]
    have hstopb : stratShouldStop strat (nxg (stratInit strat)).length num_languages
        = true := by
      simp [stratShouldStop, hstop]
    rw [if_pos hstopb, if_pos hstopb]
  · rw [if_neg (by decide)] at hstop
    rw [History.build_history, GrapeMain.build_history, if_neg (by decide),
      if_pos rfl, hs]
    show History.buildHistoryAux nxl num_languages (fuel + 1) [] (stratInit strat)
        strat []
      = GrapeMain.buildHistoryAux (fun r => nxl ((pyInt r : ℤ) : ℚ)) num_languages
        (fuel + 1) [] (stratInit strat) strat []
    rw [History.buildHistoryAux, GrapeMain.buildHistoryAux, hp]
    have hr1 : History.reconcile ([] : List (HistoryEntry α)) (nxl (stratInit strat))
        = nxl (stratInit strat) := rfl
    have hr2 : GrapeMain.reconcile ([] : List (HistoryEntry α)) (nxl (stratInit strat))
        = nxl (stratInit strat) := rfl
    rw [hr1, hr2]
    have hstopb : stratShouldStop strat (nxl (stratInit strat)).length num_languages
        = true := by
      simp [stratShouldStop, hstop]
    rw [if_pos hstopb, if_pos hstopb]

theorem C4_first_iteration_agreement_witness :
    History.build_history (fun _ => [({1} : Finset ℕ)]) (fun _ => [{1}])
        1 "greedy" "fixed" 0 0 1
      = GrapeMain.build_history (fun _ => [({1} : Finset ℕ)]) (fun _ => [{1}])
        1 "greedy" "fixed" 0 0 1 :=
  C4_first_iteration_agreement (fun _ => [{1}]) (fun _ => [{1}]) 1 "greedy" "fixed"
    0 0 0 (.fixedIncrement (1/10)) (Or.inl rfl) rfl
    (by norm_num [pyInt, stratInit]) (by decide)

/-- C4 (counterexample): on the same graph and identical arguments
(`num_languages = 2`, method `"greedy"`, strategy `"fixed"`, default
`initial_value` and `adjust_factor`), the src/grape.py variant calls the
detector at `int(0.1) = 0` on the second iteration, never refines, and
loops forever (fuel exhausted), while the src/history.py variant passes
`0.1` unchanged and returns a two-entry history. -/
theorem C4_variants_differ :
    GrapeMain.build_history sampleFind sampleFind 2 "greedy" "fixed" 0 (1/10) 2
      ≠ History.build_history sampleFind sampleFind 2 "greedy" "fixed" 0 (1/10) 2 := by
  have hfloor : (⌊(1 / 10 : ℚ)⌋ : ℤ) = 0 := by
    rw [Int.floor_eq_iff]
    norm_num
  have hint0 : pyInt 0 = 0 := by norm_num [pyInt]
  have hint1 : pyInt (1 / 10) = 0 := by norm_num [pyInt, hfloor]
  have hdec : decompose_sets [({1, 2} : Finset ℕ)] [{1, 2}] = [{1, 2}] := by decide
  have h2 : GrapeMain.build_history sampleFind sampleFind 2 "greedy" "fixed"
      0 (1/10) 2 = none := by
    norm_num [GrapeMain.build_history, GrapeMain.buildHistoryAux, GrapeMain.reconcile,
      acceptEntry, pickStrategy, stratInit, stratShouldStop, stratUpdate1, sampleFind,
      hint0, hint1, hdec, HistoryEntry.number_of_communities]
  have h1 : History.build_history sampleFind sampleFind 2 "greedy" "fixed"
      0 (1/10) 2
      = some (.ok [⟨0, [({1, 2} : Finset ℕ)]⟩, ⟨1/10, [{1}, {2}]⟩], [0, 1/10]) := by
    have hsplit : split_sets [({1, 2} : Finset ℕ)] [{1}, {2}] = [{1}, {2}] := by decide
    norm_num [History.build_history, History.buildHistoryAux, History.reconcile,
      acceptEntry, pickStrategy, stratInit, stratShouldStop, stratUpdate1,
      sampleFind, hsplit, HistoryEntry.number_of_communities]
  rw [h1, h2]
  simp

/-- C9 (code-bug evidence): neither Louvain adapter passes a `seed` to
`nx.algorithms.community.louvain_communities` — the call site omits the
keyword, so the library default `seed=None` (a fresh random generator
per call) is used, and the pipeline's determinism is not secured by the
code. -/
theorem C9_louvain_call_unseeded :
    (∀ r : ℚ, (History.louvainCallArgs r).seed = none) ∧
    (∀ r : ℚ, (GrapeMain.louvainCallArgs r).seed = none) :=
  ⟨fun _ => rfl, fun _ => rfl⟩

/-! ## The tree assembler (src/tree.py)

An ete3 `TreeNode` is a mutable rose tree whose nodes carry a `name` and
a branch length `dist`.  It is embedded as the inductive `RTree`. -/

/-- An ete3 `TreeNode`: name, branch length to the parent (`dist`), and
the ordered list of children. -/
inductive RTree where
  | node (name : String) (dist : ℚ) (children : List RTree)

namespace RTree

mutual

def deq : (a b : RTree) → Decidable (a = b)
  | .node nm d cs, .node nm' d' cs' =>
    match decEq nm nm', decEq d d', deqList cs cs' with
    | .isTrue h1, .isTrue h2, .isTrue h3 => .isTrue (by rw [h1, h2, h3])
    | .isFalse h1, _, _ => .isFalse (by intro h; cases h; exact h1 rfl)
    | _, .isFalse h2, _ => .isFalse (by intro h; cases h; exact h2 rfl)
    | _, _, .isFalse h3 => .isFalse (by intro h; cases h; exact h3 rfl)

def deqList : (a b : List RTree) → Decidable (a = b)
  | [], [] => .isTrue rfl
  | [], _ :: _ => .isFalse (by intro h; cases h)
  | _ :: _, [] => .isFalse (by intro h; cases h)
  | a :: as, b :: bs =>
    match deq a b, deqList as bs with
    | .isTrue h1, .isTrue h2 => .isTrue (by rw [h1, h2])
    | .isFalse h1, _ => .isFalse (by intro h; cases h; exact h1 rfl)
    | _, .isFalse h2 => .isFalse (by intro h; cases h; exact h2 rfl)

end

instance : DecidableEq RTree := deq

def name : RTree → String
  | .node nm _ _ => nm

def dist : RTree → ℚ
  | .node _ d _ => d

def children : RTree → List RTree
  | .node _ _ cs => cs

mutual

/-- Tree size, for strong induction. -/
def size : RTree → ℕ
  | .node _ _ cs => 1 + sizeForest cs

def sizeForest : List RTree → ℕ
  | [] => 0
  | c :: cs => size c + sizeForest cs

end

/-- `child.dist += current_node.dist` when splicing out a unary node
(src/tree.py line 37): the child keeps its name and children and its
branch length grows by the removed node's. -/
def addDist (d : ℚ) : RTree → RTree
  | .node nm d' cs => .node nm (d' + d) cs

/-- One splice of `prune_node` (src/tree.py lines 34-43): a node with
exactly one child is replaced by that child, whose `dist` absorbs the
removed node's `dist`; any other node is left alone. -/
def liftUnary : RTree → RTree
  | .node _ d [c] => c.addDist d
  | t => t

mutual

/-- The full effect of the iterative `prune_node` stack walk of
`remove_single_descendant_nodes` (src/tree.py lines 24-47), rendered as
a bottom-up recursion.  Each splice leaves every surviving node's child
count unchanged (`add_child` then `remove_child` on the grandparent is
count-neutral), so the stack's top-down processing order is immaterial
and the walk is equivalent to collapsing every child bottom-up; a chain
of unary nodes is absorbed one level per enclosing ancestor, with the
branch lengths summed exactly as `child.dist += current_node.dist` does.
The root itself is never spliced (`current_node.up is not None`). -/
def collapse : RTree → RTree
  | .node nm d cs => .node nm d (collapseForest cs)

def collapseForest : List RTree → List RTree
  | [] => []
  | c :: cs => liftUnary (collapse c) :: collapseForest cs

end

end RTree

/-- `remove_single_descendant_nodes` (src/tree.py lines 6-56): prune all
unary nodes below the root, then, if the root is left with a single
child, promote that child to be the new root with `dist` reset to 0. -/
def remove_single_descendant_nodes (tree : RTree) : RTree :=
  match tree.collapse with
  | .node _ _d [c] =>
      match c with
      | .node nm _ cs => .node nm 0 cs
  | t => t

namespace RTree

mutual

/-- The name-cleanup pass of `build_tree_from_history` (src/tree.py lines
163-165): every non-leaf node's name is set to the empty string. -/
def clearInternalNames : RTree → RTree
  | .node nm d cs => .node (if cs.isEmpty then nm else "") d (clearForestNames cs)

def clearForestNames : List RTree → List RTree
  | [] => []
  | c :: cs => clearInternalNames c :: clearForestNames cs

end

mutual

/-- Names of the leaves below a node, left to right (a leaf reports its
own name). -/
def leafNames : RTree → List String
  | .node nm _ cs => if cs.isEmpty then [nm] else leafNamesForest cs

def leafNamesForest : List RTree → List String
  | [] => []
  | c :: cs => leafNames c ++ leafNamesForest cs

end

end RTree

/-- Insertion into a sorted list (stable insertion sort). -/
def insertSortedBy (le : α → α → Bool) (x : α) : List α → List α
  | [] => [x]
  | y :: ys => if le x y then x :: y :: ys else y :: insertSortedBy le x ys

/-- Stable insertion sort by a boolean comparison. -/
def sortBy (le : α → α → Bool) (l : List α) : List α :=
  l.foldr (insertSortedBy le) []

namespace RTree

mutual

/-- Recursively reorder every node's children list by a comparison —
the shape shared by ete3's `sort_descendants` and `ladderize`. -/
def orderChildrenBy (le : RTree → RTree → Bool) : RTree → RTree
  | .node nm d cs => .node nm d (sortBy le (orderForestBy le cs))

def orderForestBy (le : RTree → RTree → Bool) : List RTree → List RTree
  | [] => []
  | c :: cs => orderChildrenBy le c :: orderForestBy le cs

end

end RTree

/-- Modelled from the spec: ete3's `TreeNode.sort_descendants`, called by
`build_tree_from_history` (src/tree.py line 167), is part of the
external ete3 library; per spec §4.3 step 7 it canonicalizes child order
by a stable deterministic rule (ete3 keys each child by the string of
its sorted leaf-name content).  Reordering children changes no name,
`dist`, or child count. -/
def sort_descendants (t : RTree) : RTree :=
  RTree.orderChildrenBy
    (fun a b =>
      decide (String.intercalate "," (sortBy (fun x y => decide (x ≤ y)) a.leafNames)
        ≤ String.intercalate "," (sortBy (fun x y => decide (x ≤ y)) b.leafNames))) t

/-- Modelled from the spec: ete3's `TreeNode.ladderize`, called by
`build_tree_from_history` (src/tree.py line 168), is part of the
external ete3 library; per spec §4.3 step 7 it reorders children by a
deterministic rule (number of descendant leaves).  Reordering children
changes no name, `dist`, or child count. -/
def ladderize (t : RTree) : RTree :=
  RTree.orderChildrenBy
    (fun a b => decide (a.leafNames.length ≤ b.leafNames.length)) t

mutual

/-- Whether every node (root included) has a child count different from
1 — the "no unary nodes" invariant. -/
def noUnaryB : RTree → Bool
  | .node _ _ cs => decide (cs.length ≠ 1) && noUnaryForestB cs

def noUnaryForestB : List RTree → Bool
  | [] => true
  | c :: cs => noUnaryB c && noUnaryForestB cs

end

mutual

/-- Whether every non-root node's `dist` is at least `ε`. -/
def distFloorB (ε : ℚ) : RTree → Bool
  | .node _ _ cs => distFloorForestB ε cs

def distFloorForestB (ε : ℚ) : List RTree → Bool
  | [] => true
  | c :: cs => (decide (ε ≤ c.dist) && distFloorB ε c) && distFloorForestB ε cs

end

/-! ### Structural lemmas about the pruning pass -/

theorem RTree.size_pos (t : RTree) : 0 < t.size := by
  cases t with
  | node nm d cs => simp [RTree.size]

theorem RTree.size_le_sizeForest {c : RTree} {cs : List RTree} (h : c ∈ cs) :
    c.size ≤ RTree.sizeForest cs := by
  induction cs with
  | nil => cases h
  | cons a as ih =>
    rcases List.mem_cons.mp h with h1 | h2
    · subst h1
      simp [RTree.sizeForest]
    · have := ih h2
      simp only [RTree.sizeForest]
      omega

theorem noUnaryForestB_iff (cs : List RTree) :
    noUnaryForestB cs = true ↔ ∀ c ∈ cs, noUnaryB c = true := by
  induction cs with
  | nil => simp [noUnaryForestB]
  | cons a as ih => simp [noUnaryForestB, ih]

theorem distFloorForestB_iff (ε : ℚ) (cs : List RTree) :
    distFloorForestB ε cs = true ↔
      ∀ c ∈ cs, ε ≤ c.dist ∧ distFloorB ε c = true := by
  induction cs with
  | nil => simp [distFloorForestB]
  | cons a as ih => simp [distFloorForestB, ih, and_assoc]

theorem RTree.collapse_dist (t : RTree) : t.collapse.dist = t.dist := by
  cases t with
  | node nm d cs => simp [RTree.collapse, RTree.dist]

theorem noUnaryB_addDist (d : ℚ) (t : RTree) :
    noUnaryB (t.addDist d) = noUnaryB t := by
  cases t with
  | node nm d' cs => simp [RTree.addDist, noUnaryB]

theorem distFloorB_addDist (ε d : ℚ) (t : RTree) :
    distFloorB ε (t.addDist d) = distFloorB ε t := by
  cases t with
  | node nm d' cs => simp [RTree.addDist, distFloorB]

theorem mem_collapseForest {x : RTree} {cs : List RTree} :
    x ∈ RTree.collapseForest cs ↔ ∃ c ∈ cs, x = c.collapse.liftUnary := by
  induction cs with
  | nil => simp [RTree.collapseForest]
  | cons a as ih =>
    simp only [RTree.collapseForest, List.mem_cons, ih]
    constructor
    · rintro (rfl | ⟨c, hc, rfl⟩)
      · exact ⟨a, Or.inl rfl, rfl⟩
      · exact ⟨c, Or.inr hc, rfl⟩
    · rintro ⟨c, rfl | hc, rfl⟩
      · exact Or.inl rfl
      · exact Or.inr ⟨c, hc, rfl⟩

/-- After `collapse`, every node strictly below the root has a child
count different from 1. -/
theorem collapse_good (t : RTree) :
    noUnaryForestB t.collapse.children = true := by
  have main : ∀ n t, RTree.size t ≤ n → noUnaryForestB (RTree.collapse t).children = true := by
    intro n
    induction n with
    | zero =>
      intro t h
      have := RTree.size_pos t
      omega
    | succ n ih =>
      intro t h
      cases t with
      | node nm d cs =>
        simp only [RTree.collapse, RTree.children]
        rw [noUnaryForestB_iff]
        intro c hc
        obtain ⟨c', hc', rfl⟩ := mem_collapseForest.mp hc
        have hsz : RTree.size c' ≤ n := by
          have h1 := RTree.size_le_sizeForest hc'
          simp only [RTree.size] at h
          omega
        have hgood : noUnaryForestB c'.collapse.children = true := ih c' hsz
        cases hcol : c'.collapse with
        | node nm' d' cs' =>
          rw [hcol] at hgood
          simp only [RTree.children] at hgood
          match cs', hgood with
          | [], _ => simp [RTree.liftUnary, noUnaryB, noUnaryForestB]
          | [g], hgood =>
            simp only [RTree.liftUnary]
            rw [noUnaryForestB_iff] at hgood
            have hg := hgood g (by simp)
            cases g with
            | node gn gd gcs =>
              simp only [RTree.addDist]
              simp only [noUnaryB] at hg ⊢
              exact hg
          | g1 :: g2 :: gs, hgood =>
            simp only [RTree.liftUnary, noUnaryB, Bool.and_eq_true, decide_eq_true_eq]
            rw [noUnaryForestB_iff]
            exact ⟨by simp, fun c hc => (noUnaryForestB_iff _).mp hgood c hc⟩
  exact main (RTree.size t) t le_rfl

/-- A unary splice keeps the branch-length floor: the lifted child's
`dist` is the sum of two values that are each at least `ε ≥ 0`. -/
theorem distFloor_liftUnary {ε : ℚ} (hε : 0 ≤ ε) {x : RTree}
    (hd : ε ≤ x.dist) (hx : distFloorB ε x = true) :
    ε ≤ x.liftUnary.dist ∧ distFloorB ε x.liftUnary = true := by
  cases x with
  | node nm d cs =>
    match cs, hx with
    | [], _ => exact ⟨hd, by simp [RTree.liftUnary, distFloorB, distFloorForestB]⟩
    | [g], hx =>
      simp only [distFloorB] at hx
      obtain ⟨hg, hgf⟩ := (distFloorForestB_iff ε [g]).mp hx g (by simp)
      simp only [RTree.liftUnary]
      constructor
      · cases g with
        | node gn gd gcs =>
          simp only [RTree.addDist, RTree.dist]
          simp only [RTree.dist] at hg hd
          linarith
      · rw [distFloorB_addDist]
        exact hgf
    | g1 :: g2 :: gs, hx =>
      exact ⟨hd, hx⟩

/-- `collapse` preserves the branch-length floor. -/
theorem distFloor_collapse {ε : ℚ} (hε : 0 ≤ ε) :
    ∀ t : RTree, distFloorB ε t = true → distFloorB ε t.collapse = true := by
  have main : ∀ n t, RTree.size t ≤ n →
      distFloorB ε t = true → distFloorB ε (RTree.collapse t) = true := by
    intro n
    induction n with
    | zero =>
      intro t h
      have := RTree.size_pos t
      omega
    | succ n ih =>
      intro t h ht
      cases t with
      | node nm d cs =>
        simp only [RTree.collapse, distFloorB]
        rw [distFloorForestB_iff]
        intro c hc
        obtain ⟨c', hc', rfl⟩ := mem_collapseForest.mp hc
        have hsz : RTree.size c' ≤ n := by
          have h1 := RTree.size_le_sizeForest hc'
          simp only [RTree.size] at h
          omega
        simp only [distFloorB] at ht
        obtain ⟨hcd, hcf⟩ := (distFloorForestB_iff ε cs).mp ht c' hc'
        have hcol : distFloorB ε c'.collapse = true := ih c' hsz hcf
        have hcoldist : ε ≤ c'.collapse.dist := by
          rw [RTree.collapse_dist]
          exact hcd
        exact distFloor_liftUnary hε hcoldist hcol
  intro t ht
  exact main (RTree.size t) t le_rfl ht

/-- C6 core: `remove_single_descendant_nodes` always produces a tree
with no unary nodes anywhere (root included, thanks to the final root
promotion). -/
theorem noUnaryB_remove (t : RTree) :
    noUnaryB (remove_single_descendant_nodes t) = true := by
  have hgood := collapse_good t
  unfold remove_single_descendant_nodes
  cases hcol : t.collapse with
  | node nm d cs =>
    rw [hcol] at hgood
    simp only [RTree.children] at hgood
    match cs, hgood with
    | [], _ => simp [noUnaryB, noUnaryForestB]
    | [c], hgood =>
      rw [noUnaryForestB_iff] at hgood
      have hc := hgood c (by simp)
      cases c with
      | node nm' d' cs' =>
        simp only [noUnaryB] at hc ⊢
        exact hc
    | c1 :: c2 :: cs, hgood =>
      simp only [noUnaryB, Bool.and_eq_true, decide_eq_true_eq]
      exact ⟨by simp, hgood⟩

/-- `remove_single_descendant_nodes` preserves the branch-length floor
(the promoted root's own `dist` is reset to 0, but the floor constrains
only non-root nodes). -/
theorem distFloorB_remove {ε : ℚ} (hε : 0 ≤ ε) (t : RTree)
    (ht : distFloorB ε t = true) :
    distFloorB ε (remove_single_descendant_nodes t) = true := by
  have hcolf := distFloor_collapse hε t ht
  unfold remove_single_descendant_nodes
  cases hcol : t.collapse with
  | node nm d cs =>
    rw [hcol] at hcolf
    match cs, hcolf with
    | [], _ => simp [distFloorB, distFloorForestB]
    | [c], hcolf =>
      simp only [distFloorB] at hcolf
      obtain ⟨-, hcf⟩ := (distFloorForestB_iff ε [c]).mp hcolf c (by simp)
      cases c with
      | node nm' d' cs' =>
        simp only [distFloorB] at hcf ⊢
        exact hcf
    | c1 :: c2 :: cs, hcolf =>
      exact hcolf

/-! ### The cosmetic passes preserve child counts and branch lengths -/

theorem mem_clearForestNames {x : RTree} {cs : List RTree} :
    x ∈ RTree.clearForestNames cs ↔ ∃ c ∈ cs, x = c.clearInternalNames := by
  induction cs with
  | nil => simp [RTree.clearForestNames]
  | cons a as ih =>
    simp only [RTree.clearForestNames, List.mem_cons, ih]
    constructor
    · rintro (rfl | ⟨c, hc, rfl⟩)
      · exact ⟨a, Or.inl rfl, rfl⟩
      · exact ⟨c, Or.inr hc, rfl⟩
    · rintro ⟨c, rfl | hc, rfl⟩
      · exact Or.inl rfl
      · exact Or.inr ⟨c, hc, rfl⟩

theorem length_clearForestNames (cs : List RTree) :
    (RTree.clearForestNames cs).length = cs.length := by
  induction cs with
  | nil => rfl
  | cons a as ih => simp [RTree.clearForestNames, ih]

theorem dist_clearInternalNames (t : RTree) :
    t.clearInternalNames.dist = t.dist := by
  cases t with
  | node nm d cs => simp [RTree.clearInternalNames, RTree.dist]

theorem noUnaryB_clearInternalNames (t : RTree) (ht : noUnaryB t = true) :
    noUnaryB t.clearInternalNames = true := by
  have main : ∀ n t, RTree.size t ≤ n → noUnaryB t = true →
      noUnaryB (RTree.clearInternalNames t) = true := by
    intro n
    induction n with
    | zero =>
      intro t h
      have := RTree.size_pos t
      omega
    | succ n ih =>
      intro t h ht
      cases t with
      | node nm d cs =>
        simp only [RTree.clearInternalNames, noUnaryB, Bool.and_eq_true,
          decide_eq_true_eq] at ht ⊢
        obtain ⟨hlen, hf⟩ := ht
        refine ⟨by rw [length_clearForestNames]; exact hlen, ?_⟩
        rw [noUnaryForestB_iff]
        intro c hc
        obtain ⟨c', hc', rfl⟩ := mem_clearForestNames.mp hc
        have hsz : RTree.size c' ≤ n := by
          have := RTree.size_le_sizeForest hc'
          simp only [RTree.size] at h
          omega
        exact ih c' hsz ((noUnaryForestB_iff cs).mp hf c' hc')
  exact main (RTree.size t) t le_rfl ht

theorem distFloorB_clearInternalNames (ε : ℚ) (t : RTree)
    (ht : distFloorB ε t = true) :
    distFloorB ε t.clearInternalNames = true := by
  have main : ∀ n t, RTree.size t ≤ n → distFloorB ε t = true →
      distFloorB ε (RTree.clearInternalNames t) = true := by
    intro n
    induction n with
    | zero =>
      intro t h
      have := RTree.size_pos t
      omega
    | succ n ih =>
      intro t h ht
      cases t with
      | node nm d cs =>
        simp only [RTree.clearInternalNames, distFloorB] at ht ⊢
        rw [distFloorForestB_iff]
        intro c hc
        obtain ⟨c', hc', rfl⟩ := mem_clearForestNames.mp hc
        have hsz : RTree.size c' ≤ n := by
          have := RTree.size_le_sizeForest hc'
          simp only [RTree.size] at h
          omega
        obtain ⟨hcd, hcf⟩ := (distFloorForestB_iff ε cs).mp ht c' hc'
        exact ⟨by rw [dist_clearInternalNames]; exact hcd, ih c' hsz hcf⟩
  exact main (RTree.size t) t le_rfl ht

theorem mem_insertSortedBy {le : α → α → Bool} {x a : α} {l : List α} :
    a ∈ insertSortedBy le x l ↔ a = x ∨ a ∈ l := by
  induction l with
  | nil => simp [insertSortedBy]
  | cons y ys ih =>
    simp only [insertSortedBy]
    by_cases hle : le x y = true
    · rw [if_pos hle]
      simp [List.mem_cons]
    · rw [if_neg hle]
      simp only [List.mem_cons, ih]
      tauto

theorem length_insertSortedBy (le : α → α → Bool) (x : α) (l : List α) :
    (insertSortedBy le x l).length = l.length + 1 := by
  induction l with
  | nil => rfl
  | cons y ys ih =>
    simp only [insertSortedBy]
    by_cases hle : le x y = true
    · rw [if_pos hle]
      simp
    · rw [if_neg hle]
      simp [ih]

theorem mem_sortBy {le : α → α → Bool} {a : α} {l : List α} :
    a ∈ sortBy le l ↔ a ∈ l := by
  induction l with
  | nil => simp [sortBy]
  | cons y ys ih =>
    show a ∈ insertSortedBy le y (sortBy le ys) ↔ _
    rw [mem_insertSortedBy]
    simp [ih]

theorem length_sortBy (le : α → α → Bool) (l : List α) :
    (sortBy le l).length = l.length := by
  induction l with
  | nil => rfl
  | cons y ys ih =>
    show (insertSortedBy le y (sortBy le ys)).length = _
    rw [length_insertSortedBy, ih]
    rfl

theorem mem_orderForestBy {le : RTree → RTree → Bool} {x : RTree} {cs : List RTree} :
    x ∈ RTree.orderForestBy le cs ↔ ∃ c ∈ cs, x = RTree.orderChildrenBy le c := by
  induction cs with
  | nil => simp [RTree.orderForestBy]
  | cons a as ih =>
    simp only [RTree.orderForestBy, List.mem_cons, ih]
    constructor
    · rintro (rfl | ⟨c, hc, rfl⟩)
      · exact ⟨a, Or.inl rfl, rfl⟩
      · exact ⟨c, Or.inr hc, rfl⟩
    · rintro ⟨c, rfl | hc, rfl⟩
      · exact Or.inl rfl
      · exact Or.inr ⟨c, hc, rfl⟩

theorem length_orderForestBy (le : RTree → RTree → Bool) (cs : List RTree) :
    (RTree.orderForestBy le cs).length = cs.length := by
  induction cs with
  | nil => rfl
  | cons a as ih => simp [RTree.orderForestBy, ih]

theorem dist_orderChildrenBy (le : RTree → RTree → Bool) (t : RTree) :
    (RTree.orderChildrenBy le t).dist = t.dist := by
  cases t with
  | node nm d cs => simp [RTree.orderChildrenBy, RTree.dist]

theorem noUnaryB_orderChildrenBy (le : RTree → RTree → Bool) (t : RTree)
    (ht : noUnaryB t = true) :
    noUnaryB (RTree.orderChildrenBy le t) = true := by
  have main : ∀ n t, RTree.size t ≤ n → noUnaryB t = true →
      noUnaryB (RTree.orderChildrenBy le t) = true := by
    intro n
    induction n with
    | zero =>
      intro t h
      have := RTree.size_pos t
      omega
    | succ n ih =>
      intro t h ht
      cases t with
      | node nm d cs =>
        simp only [RTree.orderChildrenBy, noUnaryB, Bool.and_eq_true,
          decide_eq_true_eq] at ht ⊢
        obtain ⟨hlen, hf⟩ := ht
        refine ⟨by rw [length_sortBy, length_orderForestBy]; exact hlen, ?_⟩
        rw [noUnaryForestB_iff]
        intro c hc
        rw [mem_sortBy] at hc
        obtain ⟨c', hc', rfl⟩ := mem_orderForestBy.mp hc
        have hsz : RTree.size c' ≤ n := by
          have := RTree.size_le_sizeForest hc'
          simp only [RTree.size] at h
          omega
        exact ih c' hsz ((noUnaryForestB_iff cs).mp hf c' hc')
  exact main (RTree.size t) t le_rfl ht

theorem distFloorB_orderChildrenBy (le : RTree → RTree → Bool) (ε : ℚ) (t : RTree)
    (ht : distFloorB ε t = true) :
    distFloorB ε (RTree.orderChildrenBy le t) = true := by
  have main : ∀ n t, RTree.size t ≤ n → distFloorB ε t = true →
      distFloorB ε (RTree.orderChildrenBy le t) = true := by
    intro n
    induction n with
    | zero =>
      intro t h
      have := RTree.size_pos t
      omega
    | succ n ih =>
      intro t h ht
      cases t with
      | node nm d cs =>
        simp only [RTree.orderChildrenBy, distFloorB] at ht ⊢
        rw [distFloorForestB_iff]
        intro c hc
        rw [mem_sortBy] at hc
        obtain ⟨c', hc', rfl⟩ := mem_orderForestBy.mp hc
        have hsz : RTree.size c' ≤ n := by
          have := RTree.size_le_sizeForest hc'
          simp only [RTree.size] at h
          omega
        obtain ⟨hcd, hcf⟩ := (distFloorForestB_iff ε cs).mp ht c' hc'
        exact ⟨by rw [dist_orderChildrenBy]; exact hcd, ih c' hsz hcf⟩
  exact main (RTree.size t) t le_rfl ht

/-! ### The construction phase of `build_tree_from_history`

The loop mutates an ete3 tree through node references held in
`last_observed_ancestor`.  Node identity is embedded as a creation
index: `0` is `tree_root` and the `k`-th created node is `k + 1`; each
created node records its label, its parent's index, the `dist` passed to
`add_child`, and its entry in `node_resolutions`. -/

/-- One node created by `build_tree_from_history`. -/
structure NodeRec where
  name : String
  parent : ℕ
  dist : ℚ
  res : ℚ
deriving DecidableEq

/-- The fatal construction errors of `build_tree_from_history`
(src/tree.py lines 136-144): a clade with no identifiable parent, or
members that disagree on their last observed ancestor. -/
inductive TreeError where
  | noParent (label : String)
  | multipleParents (label : String)
deriving DecidableEq

/-- The loop state: the created nodes, `last_observed_ancestor`, and
`observed_clades`. -/
structure BuildState where
  recs : List NodeRec
  lastObs : String → Option ℕ
  observed : List (Finset String)

/-- `node_resolutions.get(node, 0.0)`: the root was registered with
resolution 0; node `k+1` carries the resolution stored in its record. -/
def nodeResolution (recs : List NodeRec) (i : ℕ) : ℚ :=
  if i = 0 then 0 else ((recs.get? (i - 1)).map (·.res)).getD 0

/-- Boolean `≤` on a linear order, the comparison behind Python's
`sorted` on strings. -/
def leB [LinearOrder α] (x y : α) : Bool := decide (x ≤ y)

/-- One step of the insertion: the element goes in front when it is
`≤` the head. -/
theorem insertSortedBy_cons_le [LinearOrder α] {a c : α} (h : a ≤ c) (l : List α) :
    insertSortedBy leB a (c :: l) = a :: c :: l := by
  simp only [insertSortedBy]
  rw [if_pos (by simp [leB, h])]

/-- One step of the insertion: the element moves past a strictly
smaller head. -/
theorem insertSortedBy_cons_gt [LinearOrder α] {a c : α} (h : c < a) (l : List α) :
    insertSortedBy leB a (c :: l) = c :: insertSortedBy leB a l := by
  simp only [insertSortedBy]
  rw [if_neg (by simp [leB, h.not_le])]

/-- Inserting two elements into a sorted list commutes (on a linear
order), so insertion sort lifts to multisets. -/
theorem insertSortedBy_leB_comm [LinearOrder α] (a b : α) (l : List α) :
    insertSortedBy leB a (insertSortedBy leB b l)
      = insertSortedBy leB b (insertSortedBy leB a l) := by
  induction l with
  | nil =>
    rcases le_total a b with hab | hba
    · rcases eq_or_lt_of_le hab with rfl | hlt
      · rfl
      · show insertSortedBy leB a [b] = insertSortedBy leB b [a]
        rw [insertSortedBy_cons_le hab, insertSortedBy_cons_gt hlt]
        rfl
    · rcases eq_or_lt_of_le hba with rfl | hlt
      · rfl
      · show insertSortedBy leB a [b] = insertSortedBy leB b [a]
        rw [insertSortedBy_cons_gt hlt, insertSortedBy_cons_le hba]
        rfl
  | cons c l ih =>
    rcases le_or_lt b c with hbc | hbc <;> rcases le_or_lt a c with hac | hac
    · rcases le_total a b with hab | hba
      · rcases eq_or_lt_of_le hab with rfl | hlt
        · rfl
        · rw [insertSortedBy_cons_le hbc, insertSortedBy_cons_le hac,
            insertSortedBy_cons_le hab, insertSortedBy_cons_gt hlt,
            insertSortedBy_cons_le hbc]
      · rcases eq_or_lt_of_le hba with rfl | hlt
        · rfl
        · rw [insertSortedBy_cons_le hbc, insertSortedBy_cons_le hac,
            insertSortedBy_cons_gt hlt, insertSortedBy_cons_le hac,
            insertSortedBy_cons_le hba]
    · have hba : b < a := hbc.trans_lt hac
      rw [insertSortedBy_cons_le hbc, insertSortedBy_cons_gt hac,
        insertSortedBy_cons_gt hba, insertSortedBy_cons_gt hac,
        insertSortedBy_cons_le hbc]
    · have hab : a < b := hac.trans_lt hbc
      rw [insertSortedBy_cons_gt hbc, insertSortedBy_cons_le hac,
        insertSortedBy_cons_le hac, insertSortedBy_cons_gt hab,
        insertSortedBy_cons_gt hbc]
    · rw [insertSortedBy_cons_gt hbc, insertSortedBy_cons_gt hac,
        insertSortedBy_cons_gt hac, insertSortedBy_cons_gt hbc, ih]

instance [LinearOrder α] : LeftCommutative (insertSortedBy (leB (α := α))) :=
  ⟨fun a b l => insertSortedBy_leB_comm a b l⟩

/-- `sorted(list(s))`: the `≤`-sorted list of the elements of a finite
set of strings, computed by a structural insertion sort over the
underlying multiset (well-defined by `insertSortedBy_leB_comm`, and
kernel-evaluable on concrete sets). -/
def sortedMembers (s : Finset String) : List String :=
  Multiset.foldr (insertSortedBy leB) [] s.val

/-- `clade_label = "/".join(sorted(list(clade_members)))`. -/
def cladeLabel (clade_members : Finset String) : String :=
  String.intercalate "/" (sortedMembers clade_members)

/-- `{last_observed_ancestor[m] for m in clade_members if m in
last_observed_ancestor}` (src/tree.py lines 119-123), a set of node
identities. -/
def potentialParents (st : BuildState) (clade_members : Finset String) : Finset ℕ :=
  (clade_members.val.filterMap st.lastObs).toFinset

/-- Attaching the new clade node once its parent is determined
(src/tree.py lines 148-157): compute
`branch_length = max(1e-8, child_resolution - parent_resolution)`,
`add_child`, record the clade as observed, and repoint every member's
last observed ancestor at the new node. -/
def attachClade (st : BuildState) (clade_members : Finset String)
    (resolution : ℚ) (actual_parent : ℕ) : BuildState :=
  { recs := st.recs ++
      [⟨cladeLabel clade_members, actual_parent,
        max (1/100000000) (resolution - nodeResolution st.recs actual_parent),
        resolution⟩],
    lastObs := fun m =>
      if m ∈ clade_members then some (st.recs.length + 1) else st.lastObs m,
    observed := st.observed ++ [clade_members] }

def processClade (firstParameter resolution : ℚ) (st : BuildState)
    (clade_members : Finset String) : Except TreeError BuildState :=
  if clade_members = ∅ then .ok st
  else if clade_members ∈ st.observed then .ok st
  else
    if potentialParents st clade_members = ∅ then
      if resolution = firstParameter then .ok (attachClade st clade_members resolution 0)
      else .error (.noParent (cladeLabel clade_members))
    else if 1 < (potentialParents st clade_members).card then
      .error (.multipleParents (cladeLabel clade_members))
    else
      -- `potential_parents.pop()` on what is now a singleton set: the
      -- fold of `max` over a singleton is its unique element.
      .ok (attachClade st clade_members resolution
        ((potentialParents st clade_members).fold max 0 id))

/-- One history entry: process its clades in order. -/
def processEntry (firstParameter : ℚ) (st : BuildState)
    (entry : HistoryEntry String) : Except TreeError BuildState :=
  entry.communities.foldlM
    (fun s c => processClade firstParameter entry.parameter s c) st

/-- The initial state (src/tree.py lines 84-98): no created nodes, every
taxon of the finest (last) entry pointing at `tree_root`, no observed
clades. -/
def initState (history : List (HistoryEntry String)) : BuildState :=
  let taxa : Finset String :=
    ((history.getLast?.elim [] (·.communities)).foldr (· ∪ ·) ∅)
  { recs := [],
    lastObs := fun m => if m ∈ taxa then some 0 else none,
    observed := [] }

def nodeName (recs : List NodeRec) (i : ℕ) : String :=
  if i = 0 then "" else ((recs.get? (i - 1)).map (·.name)).getD ""

def nodeDist (recs : List NodeRec) (i : ℕ) : ℚ :=
  if i = 0 then 1 else ((recs.get? (i - 1)).map (·.dist)).getD 1

/-- The children of node `i`, in creation (= `add_child`) order.  The
builder only ever attaches a new node to an already created one, so a
child's id strictly exceeds its parent's; the `i < j` guard makes the
recursion below well-founded for arbitrary records and is vacuous on
records produced by the builder. -/
def childIds (recs : List NodeRec) (i : ℕ) : List ℕ :=
  (List.range (recs.length + 1)).filter
    (fun j => decide (i < j) &&
      decide (((recs.get? (j - 1)).map (·.parent)) = some i))

/-- Materialize the pointer records as an `RTree`.  `recs.length + 1`
fuel always suffices, since ids strictly increase along every
root-to-leaf chain. -/
def toRTreeFuel (recs : List NodeRec) : ℕ → ℕ → RTree
  | 0, i => .node (nodeName recs i) (nodeDist recs i) []
  | fuel + 1, i =>
      .node (nodeName recs i) (nodeDist recs i)
        ((childIds recs i).map (toRTreeFuel recs fuel))

/-- `build_tree_from_history` (src/tree.py lines 59-170): empty history
gives a bare `TreeNode()` (ete3 defaults: empty name, `dist` 1.0);
otherwise build the node records entry by entry, materialize the tree,
prune unary nodes, clear internal names, and canonicalize child order
(`sort_descendants` then `ladderize`). -/
def build_tree_from_history (history : List (HistoryEntry String)) :
    Except TreeError RTree :=
  match history with
  | [] => .ok (.node "" 1 [])
  | first :: _ =>
      (history.foldlM (processEntry first.parameter) (initState history)).map
        (fun st =>
          let tree_root := toRTreeFuel st.recs (st.recs.length + 1) 0
          let final_tree_root := remove_single_descendant_nodes tree_root
          ladderize (sort_descendants final_tree_root.clearInternalNames))

/-- Invariant propagation along an `Except`-valued fold. -/
theorem foldlM_except_inv {σ β ε : Type} {P : σ → Prop} {f : σ → β → Except ε σ}
    (hf : ∀ s a s', f s a = .ok s' → P s → P s') :
    ∀ (l : List β) (s s' : σ), List.foldlM f s l = .ok s' → P s → P s' := by
  intro l
  induction l with
  | nil =>
    intro s s' hrun hs
    have h2 : (Except.ok s : Except ε σ) = .ok s' := hrun
    obtain rfl := Except.ok.inj h2
    exact hs
  | cons a as ih =>
    intro s s' hrun hs
    rw [List.foldlM_cons] at hrun
    cases hfa : f s a with
    | error e =>
      rw [hfa] at hrun
      have h2 : (Except.error e : Except ε σ) = .ok s' := hrun
      exact Except.noConfusion h2
    | ok s1 =>
      rw [hfa] at hrun
      exact ih s1 s' hrun (hf s a s1 hfa hs)

/-- Every record appended by `processClade` carries a branch length of
at least the `1e-8` floor. -/
theorem attachClade_distFloor {st : BuildState} {c : Finset String}
    {res : ℚ} {p : ℕ} (hst : ∀ r ∈ st.recs, (1/100000000 : ℚ) ≤ r.dist) :
    ∀ r ∈ (attachClade st c res p).recs, (1/100000000 : ℚ) ≤ r.dist := by
  intro r hr
  simp only [attachClade, List.mem_append, List.mem_singleton] at hr
  rcases hr with hr | rfl
  · exact hst r hr
  · exact le_max_left _ _

theorem processClade_distFloor {fp res : ℚ} {st st' : BuildState}
    {c : Finset String} (hrun : processClade fp res st c = .ok st')
    (hst : ∀ r ∈ st.recs, (1/100000000 : ℚ) ≤ r.dist) :
    ∀ r ∈ st'.recs, (1/100000000 : ℚ) ≤ r.dist := by
  unfold processClade at hrun
  split at hrun
  · obtain rfl := Except.ok.inj hrun
    exact hst
  · split at hrun
    · obtain rfl := Except.ok.inj hrun
      exact hst
    · split at hrun
      · split at hrun
        · obtain rfl := Except.ok.inj hrun
          exact attachClade_distFloor hst
        · exact Except.noConfusion hrun
      · split at hrun
        · exact Except.noConfusion hrun
        · obtain rfl := Except.ok.inj hrun
          exact attachClade_distFloor hst

theorem processEntry_distFloor {fp : ℚ} {st st' : BuildState}
    {entry : HistoryEntry String} (hrun : processEntry fp st entry = .ok st')
    (hst : ∀ r ∈ st.recs, (1/100000000 : ℚ) ≤ r.dist) :
    ∀ r ∈ st'.recs, (1/100000000 : ℚ) ≤ r.dist :=
  foldlM_except_inv (fun _ _ _ h hs => processClade_distFloor h hs)
    entry.communities st st' hrun hst

/-- The materialized tree satisfies the branch-length floor whenever all
records do (the root's own `dist` is not constrained). -/
theorem distFloorB_toRTreeFuel {recs : List NodeRec}
    (hrecs : ∀ r ∈ recs, (1/100000000 : ℚ) ≤ r.dist) :
    ∀ (fuel i : ℕ), distFloorB (1/100000000) (toRTreeFuel recs fuel i) = true := by
  intro fuel
  induction fuel with
  | zero =>
    intro i
    simp [toRTreeFuel, distFloorB, distFloorForestB]
  | succ fuel ih =>
    intro i
    simp only [toRTreeFuel, distFloorB]
    rw [distFloorForestB_iff]
    intro c hc
    rw [List.mem_map] at hc
    obtain ⟨j, hj, rfl⟩ := hc
    refine ⟨?_, ih j⟩
    have hdist : (toRTreeFuel recs fuel j).dist = nodeDist recs j := by
      cases fuel <;> simp [toRTreeFuel, RTree.dist]
    rw [hdist]
    rw [childIds, List.mem_filter] at hj
    obtain ⟨-, hcond⟩ := hj
    simp only [Bool.and_eq_true, decide_eq_true_eq] at hcond
    obtain ⟨hij, hpar⟩ := hcond
    cases hget : recs.get? (j - 1) with
    | none =>
      rw [hget] at hpar
      simp at hpar
    | some rec0 =>
      have hmem : rec0 ∈ recs := List.get?_mem hget
      have hd := hrecs rec0 hmem
      rw [nodeDist, if_neg (by omega), hget]
      simpa using hd

/-- C6: every tree returned by `build_tree_from_history` has no unary
node: the post-processing pass splices out every non-root node with
exactly one child (summing branch lengths) and promotes the root's sole
child when the root itself is left unary, and the cosmetic passes
(name clearing, `sort_descendants`, `ladderize`) preserve child counts.
Hence every internal (non-leaf) node of the result has at least 2
children. -/
theorem C6_no_unary_nodes (history : List (HistoryEntry String)) (t : RTree)
    (hrun : build_tree_from_history history = .ok t) :
    noUnaryB t = true := by
  cases history with
  | nil =>
    rw [build_tree_from_history] at hrun
    have h2 : (Except.ok (RTree.node "" 1 []) : Except TreeError RTree) = .ok t := hrun
    obtain rfl := Except.ok.inj h2
    simp [noUnaryB, noUnaryForestB]
  | cons first rest =>
    rw [build_tree_from_history] at hrun
    cases hfold : (first :: rest).foldlM (processEntry first.parameter)
        (initState (first :: rest)) with
    | error e =>
      rw [hfold] at hrun
      have h2 : (Except.error e : Except TreeError RTree) = .ok t := hrun
      exact Except.noConfusion h2
    | ok st =>
      rw [hfold] at hrun
      have h2 : (Except.ok (ladderize (sort_descendants
          (RTree.clearInternalNames (remove_single_descendant_nodes
            (toRTreeFuel st.recs (st.recs.length + 1) 0))))) :
          Except TreeError RTree) = .ok t := hrun
      obtain rfl := Except.ok.inj h2
      exact noUnaryB_orderChildrenBy _ _ (noUnaryB_orderChildrenBy _ _
        (noUnaryB_clearInternalNames _ (noUnaryB_remove _)))

theorem C6_no_unary_nodes_witness :
    ∃ t, build_tree_from_history
        [⟨1, [{"a", "b"}]⟩, ⟨2, [{"a"}, {"b"}]⟩] = .ok t ∧ noUnaryB t = true :=
  ⟨_, rfl, C6_no_unary_nodes [⟨1, [{"a", "b"}]⟩, ⟨2, [{"a"}, {"b"}]⟩] _ rfl⟩

/-- C7: in `build_tree_from_history`, every node is attached with branch
length `max(1e-8, child_resolution - parent_resolution) ≥ 1e-8`, the
unary-node collapse only sums two such lengths, and root promotion only
resets the root's own `dist`; hence every non-root node of the returned
tree has `dist ≥ 1e-8`. -/
theorem C7_positive_branch_lengths (history : List (HistoryEntry String)) (t : RTree)
    (hrun : build_tree_from_history history = .ok t) :
    distFloorB (1/100000000) t = true := by
  cases history with
  | nil =>
    rw [build_tree_from_history] at hrun
    have h2 : (Except.ok (RTree.node "" 1 []) : Except TreeError RTree) = .ok t := hrun
    obtain rfl := Except.ok.inj h2
    simp [distFloorB, distFloorForestB]
  | cons first rest =>
    rw [build_tree_from_history] at hrun
    cases hfold : (first :: rest).foldlM (processEntry first.parameter)
        (initState (first :: rest)) with
    | error e =>
      rw [hfold] at hrun
      have h2 : (Except.error e : Except TreeError RTree) = .ok t := hrun
      exact Except.noConfusion h2
    | ok st =>
      rw [hfold] at hrun
      have h2 : (Except.ok (ladderize (sort_descendants
          (RTree.clearInternalNames (remove_single_descendant_nodes
            (toRTreeFuel st.recs (st.recs.length + 1) 0))))) :
          Except TreeError RTree) = .ok t := hrun
      obtain rfl := Except.ok.inj h2
      have hε : (0 : ℚ) ≤ 1/100000000 := by norm_num
      have hrecs : ∀ r ∈ st.recs, (1/100000000 : ℚ) ≤ r.dist := by
        refine foldlM_except_inv
          (P := fun s => ∀ r ∈ s.recs, (1/100000000 : ℚ) ≤ r.dist)
          (fun s a s' h hs => processEntry_distFloor h hs)
          (first :: rest) _ st hfold ?_
        intro r hr
        simp [initState] at hr
      exact distFloorB_orderChildrenBy _ _ _ (distFloorB_orderChildrenBy _ _ _
        (distFloorB_clearInternalNames _ _ (distFloorB_remove hε _
          (distFloorB_toRTreeFuel hrecs _ 0))))

theorem C7_positive_branch_lengths_witness :
    ∃ t, build_tree_from_history
        [⟨1, [{"a", "b"}]⟩, ⟨2, [{"a"}, {"b"}]⟩] = .ok t ∧
      distFloorB (1/100000000) t = true :=
  ⟨_, rfl, C7_positive_branch_lengths [⟨1, [{"a", "b"}]⟩, ⟨2, [{"a"}, {"b"}]⟩] _ rfl⟩

/-! Embedding of adjusted_cognateset_graph (src/graph.py lines 78-155).

The function computes its weights in numpy float64 arithmetic.  That
arithmetic is modelled by the abstract value type NpVal: an exact
rational stands in for a finite float, posApprox for a positive finite
value whose magnitude the model does not track (a fractional power of a
positive number), inf for IEEE positive infinity, and nan for results
the model does not track at all (nan, negative infinity, powers of
negative bases).  What matters for the claims is that numpy evaluates
the proximity correction 1 / 0.0 ** w for w > 0 as the float inf (a
RuntimeWarning is emitted but, by default, nothing is raised), so the
function never errors on a zero distance: it accumulates an infinite
weight, inf compares greater than 0, and an edge with weight inf is
added to the graph. -/

inductive NpVal where
  | val (q : ℚ)
  | posApprox
  | inf
  | nan
deriving DecidableEq

/-- numpy b ** p for a float base and exponent: anything to the power 0
is 1; 0.0 to a positive power is 0.0 and to a negative power is inf;
1.0 to any power is 1.0; an integral exponent gives the exact rational
power; a positive base with a fractional exponent gives some positive
finite value; a negative base with a fractional exponent gives nan. -/
def powf (b p : ℚ) : NpVal :=
  if p = 0 then .val 1
  else if b = 0 then (if 0 < p then .val 0 else .inf)
  else if b = 1 then .val 1
  else if p.den = 1 then .val (b ^ p.num)
  else if 0 < b then .posApprox
  else .nan

/-- numpy 1 / x for a float: 1 / 0.0 is inf (RuntimeWarning, no
exception), 1 / inf is 0.0. -/
def npRecip : NpVal → NpVal
  | .val q => if q = 0 then .inf else .val (1/q)
  | .posApprox => .posApprox
  | .inf => .val 0
  | .nan => .nan

/-- numpy float multiplication on the abstraction: inf times a positive
value is inf, inf times 0 is nan, products with an untracked positive
factor stay untracked in magnitude but keep their class. -/
def npMul : NpVal → NpVal → NpVal
  | .nan, _ => .nan
  | _, .nan => .nan
  | .val p, .val q => .val (p * q)
  | .val p, .posApprox => if p = 0 then .val 0 else if 0 < p then .posApprox else .nan
  | .posApprox, .val q => if q = 0 then .val 0 else if 0 < q then .posApprox else .nan
  | .posApprox, .posApprox => .posApprox
  | .inf, .val q => if 0 < q then .inf else .nan
  | .val p, .inf => if 0 < p then .inf else .nan
  | .inf, .posApprox => .inf
  | .posApprox, .inf => .inf
  | .inf, .inf => .inf

/-- numpy float addition on the abstraction: inf plus anything tracked
is inf; a nonnegative value plus an untracked positive value is an
untracked positive value. -/
def npAdd : NpVal → NpVal → NpVal
  | .nan, _ => .nan
  | _, .nan => .nan
  | .inf, _ => .inf
  | _, .inf => .inf
  | .val p, .val q => .val (p + q)
  | .val p, .posApprox => if 0 ≤ p then .posApprox else .nan
  | .posApprox, .val q => if 0 ≤ q then .posApprox else .nan
  | .posApprox, .posApprox => .posApprox

/-- The test weight > 0 (src/graph.py line 152) on the abstraction;
none when the model does not track the value. -/
def gtZeroO : NpVal → Option Bool
  | .val q => some (decide (0 < q))
  | .posApprox => some true
  | .inf => some true
  | .nan => none

/-- Tracked and nonnegative (possibly infinite). -/
def nngB : NpVal → Bool
  | .val q => decide (0 ≤ q)
  | .posApprox => true
  | .inf => true
  | .nan => false

/-- Tracked, finite and strictly positive. -/
def finPosB : NpVal → Bool
  | .val q => decide (0 < q)
  | .posApprox => true
  | .inf => false
  | .nan => false

/-- Order-preserving deduplication, as a Python dict preserves the
first-insertion position of each key. -/
def firstDedupAux [DecidableEq α] (seen : List α) : List α → List α
  | [] => []
  | a :: l => if a ∈ seen then firstDedupAux seen l else a :: firstDedupAux (seen ++ [a]) l

def firstDedup [DecidableEq α] (l : List α) : List α := firstDedupAux [] l

/-- The concepts of concept_lang_cognatesets (src/graph.py lines
122-124, 129), in first-appearance order of the data items. -/
def conceptsIn (data : List ((String × String) × Finset ℕ)) : List String :=
  firstDedup (data.map (fun kv => kv.1.2))

/-- lang_list for a concept (src/graph.py line 130): the languages with
an entry for the concept, in first-appearance order. -/
def langsFor (data : List ((String × String) × Finset ℕ)) (concept : String) : List String :=
  firstDedup ((data.filter (fun kv => decide (kv.1.2 = concept))).map (fun kv => kv.1.1))

/-- langs[lang] (src/graph.py lines 123-124): the cognate sets assigned
to a (language, concept) key; a later assignment overwrites an earlier
one, and a missing key holds the empty set. -/
def cogsFor (data : List ((String × String) × Finset ℕ)) (lang concept : String) : Finset ℕ :=
  (((data.filter (fun kv => decide (kv.1 = (lang, concept)))).map (fun kv => kv.2)).getLast?).getD ∅

/-- language_index (src/graph.py line 114): the dict comprehension maps
each language to its index in sorted_languages, a later duplicate
overwriting an earlier one. -/
def languageIndex : List String → String → Option ℕ
  | [], _ => none
  | a :: ls, l =>
    match languageIndex ls l with
    | some i => some (i + 1)
    | none => if a = l then some 0 else none

/-- The index pairs (i, j) with i < j of the double loop
(src/graph.py lines 132-134), in loop order. -/
def orderedPairs : List α → List (α × α)
  | [] => []
  | a :: l => l.map (fun b => (a, b)) ++ orderedPairs l

/-- The weight_adjustment a single (concept, pair) iteration adds
(src/graph.py lines 135-143): nothing when a language is missing from
language_index or no cognate set is shared, and otherwise
(1 / distance ** proximity_weight) * (shared ** sharing_factor). -/
def contribution (data : List ((String × String) × Finset ℕ)) (dm : ℕ → ℕ → ℚ)
    (ls : List String) (proximity_weight sharing_factor : ℚ)
    (concept lang1 lang2 : String) : Option NpVal :=
  match languageIndex ls lang1, languageIndex ls lang2 with
  | some idx1, some idx2 =>
    if (cogsFor data lang1 concept ∩ cogsFor data lang2 concept).Nonempty then
      some (npMul (npRecip (powf (dm idx1 idx2) proximity_weight))
        (powf ((cogsFor data lang1 concept ∩ cogsFor data lang2 concept).card : ℚ)
          sharing_factor))
    else none
  | _, _ => none

/-- All contributions accumulated into language_pairs[(l1, l2)]
(src/graph.py lines 129-145): one per concept and per loop pair that
matches the queried pair in either order (lines 144-145 write both
orders symmetrically). -/
def pairContribs (data : List ((String × String) × Finset ℕ)) (dm : ℕ → ℕ → ℚ)
    (ls : List String) (proximity_weight sharing_factor : ℚ)
    (l1 l2 : String) : List NpVal :=
  ((conceptsIn data).map (fun concept =>
    (orderedPairs (langsFor data concept)).filterMap (fun ab =>
      if (ab.1 = l1 ∧ ab.2 = l2) ∨ (ab.1 = l2 ∧ ab.2 = l1)
      then contribution data dm ls proximity_weight sharing_factor concept ab.1 ab.2
      else none))).flatten

/-- The final language_pairs[(l1, l2)] weight: the float accumulation
of the contributions into the defaultdict(float) entry, starting
from 0.0. -/
def adjusted_cognateset_graph_weight (data : List ((String × String) × Finset ℕ))
    (dm : ℕ → ℕ → ℚ) (ls : List String) (proximity_weight sharing_factor : ℚ)
    (l1 l2 : String) : NpVal :=
  (pairContribs data dm ls proximity_weight sharing_factor l1 l2).foldl npAdd (.val 0)

/-- Whether adjusted_cognateset_graph adds the edge (l1, l2)
(src/graph.py lines 151-153): the accumulated weight compared
against 0. -/
def adjusted_cognateset_graph_edge (data : List ((String × String) × Finset ℕ))
    (dm : ℕ → ℕ → ℚ) (ls : List String) (proximity_weight sharing_factor : ℚ)
    (l1 l2 : String) : Option Bool :=
  gtZeroO (adjusted_cognateset_graph_weight data dm ls proximity_weight sharing_factor l1 l2)

theorem npAdd_nng {a b : NpVal} (ha : nngB a = true) (hb : nngB b = true) :
    nngB (npAdd a b) = true := by
  cases a <;> cases b <;> simp_all [npAdd, nngB]
  linarith

theorem npAdd_inf_left {b : NpVal} (hb : nngB b = true) : npAdd .inf b = .inf := by
  cases b <;> simp_all [npAdd, nngB]

theorem npAdd_inf_right {a : NpVal} (ha : nngB a = true) : npAdd a .inf = .inf := by
  cases a <;> simp_all [npAdd, nngB]

theorem foldl_npAdd_nng : ∀ (l : List NpVal) (acc : NpVal),
    (∀ v ∈ l, nngB v = true) → nngB acc = true → nngB (l.foldl npAdd acc) = true := by
  intro l
  induction l with
  | nil => intro acc _ ha; simpa using ha
  | cons v l ih =>
    intro acc hl ha
    rw [List.foldl_cons]
    exact ih _ (fun w hw => hl w (List.mem_cons_of_mem _ hw))
      (npAdd_nng ha (hl v (List.mem_cons_self v l)))

/-- Once an infinite contribution is accumulated among tracked
nonnegative ones, the float sum is infinite. -/
theorem foldl_npAdd_inf : ∀ (l : List NpVal) (acc : NpVal),
    (∀ v ∈ l, nngB v = true) → nngB acc = true →
    (acc = .inf ∨ .inf ∈ l) → l.foldl npAdd acc = .inf := by
  intro l
  induction l with
  | nil =>
    intro acc _ _ hor
    rcases hor with rfl | h
    · rfl
    · cases h
  | cons v l ih =>
    intro acc hl ha hor
    rw [List.foldl_cons]
    have hv := hl v (List.mem_cons_self v l)
    have hl2 := fun w hw => hl w (List.mem_cons_of_mem v hw)
    rcases hor with rfl | hmem
    · rw [npAdd_inf_left hv]
      exact ih _ hl2 rfl (Or.inl rfl)
    · rcases List.mem_cons.mp hmem with heq | hmem2
      · rw [← heq, npAdd_inf_right ha]
        exact ih _ hl2 rfl (Or.inl rfl)
      · exact ih _ hl2 (npAdd_nng ha hv) (Or.inr hmem2)

/-- A power of a nonnegative float is tracked and nonnegative (it is
infinite exactly for base 0 and negative exponent). -/
theorem powf_nng {b p : ℚ} (hb : 0 ≤ b) : nngB (powf b p) = true := by
  rw [powf]
  split_ifs with hp hb0 hp2 hb1 hden hpos
  · simp [nngB]
  · simp [nngB]
  · simp [nngB]
  · simp [nngB]
  · have hbpos : 0 < b := lt_of_le_of_ne hb (Ne.symm hb0)
    simp only [nngB, decide_eq_true_eq]
    exact le_of_lt (zpow_pos hbpos _)
  · simp [nngB]
  · exact absurd (lt_of_le_of_ne hb (Ne.symm hb0)) hpos

/-- A power of a positive natural number (here: a nonempty cognate-set
count) is a tracked, finite, strictly positive float. -/
theorem powf_natCast_finPos {n : ℕ} {s : ℚ} (hn : 0 < n) :
    finPosB (powf (n : ℚ) s) = true := by
  have h0 : (0 : ℚ) < n := by exact_mod_cast hn
  rw [powf]
  -- the final branch on 0 < n is discharged by split_ifs from h0
  split_ifs with hs hn0 hs2 hn1 hden
  · simp [finPosB]
  · exact absurd hn0 (ne_of_gt h0)
  · exact absurd hn0 (ne_of_gt h0)
  · simp [finPosB]
  · simp only [finPosB, decide_eq_true_eq]
    exact zpow_pos h0 _
  · simp [finPosB]

theorem npRecip_nng {v : NpVal} (hv : nngB v = true) : nngB (npRecip v) = true := by
  cases v with
  | val q =>
    simp only [nngB, decide_eq_true_eq] at hv
    rw [npRecip]
    split_ifs with h
    · rfl
    · simp only [nngB, decide_eq_true_eq]
      exact one_div_nonneg.mpr hv
  | posApprox => rfl
  | inf => rfl
  | nan => simp [nngB] at hv

theorem npMul_nng_finPos {a b : NpVal} (ha : nngB a = true) (hb : finPosB b = true) :
    nngB (npMul a b) = true := by
  cases a with
  | nan => simp [nngB] at ha
  | inf =>
    cases b with
    | val q =>
      simp only [finPosB, decide_eq_true_eq] at hb
      simp [npMul, hb, nngB]
    | posApprox => rfl
    | inf => simp [finPosB] at hb
    | nan => simp [finPosB] at hb
  | posApprox =>
    cases b with
    | val q =>
      simp only [finPosB, decide_eq_true_eq] at hb
      simp [npMul, hb.ne', hb, nngB]
    | posApprox => rfl
    | inf => simp [finPosB] at hb
    | nan => simp [finPosB] at hb
  | val p =>
    simp only [nngB, decide_eq_true_eq] at ha
    cases b with
    | val q =>
      simp only [finPosB, decide_eq_true_eq] at hb
      simp only [npMul, nngB, decide_eq_true_eq]
      exact mul_nonneg ha hb.le
    | posApprox =>
      simp only [npMul]
      split_ifs with h1 h2
      · rfl
      · rfl
      · exact absurd (lt_of_le_of_ne ha (Ne.symm h1)) h2
    | inf => simp [finPosB] at hb
    | nan => simp [finPosB] at hb

theorem npMul_inf_finPos {b : NpVal} (hb : finPosB b = true) : npMul .inf b = .inf := by
  cases b with
  | val q =>
    simp only [finPosB, decide_eq_true_eq] at hb
    simp [npMul, hb]
  | posApprox => rfl
  | inf => simp [finPosB] at hb
  | nan => simp [finPosB] at hb

/-- With nonnegative distances every single contribution is a tracked
nonnegative float (the zero-distance one being infinite). -/
theorem contribution_nng {data : List ((String × String) × Finset ℕ)}
    {dm : ℕ → ℕ → ℚ} {ls : List String} {pw sf : ℚ} {concept lang1 lang2 : String}
    {v : NpVal} (hdm : ∀ i j, 0 ≤ dm i j)
    (hv : contribution data dm ls pw sf concept lang1 lang2 = some v) :
    nngB v = true := by
  rw [contribution] at hv
  cases h1 : languageIndex ls lang1 with
  | none =>
    rw [h1] at hv
    exact Option.noConfusion hv
  | some idx1 =>
    cases h2 : languageIndex ls lang2 with
    | none =>
      rw [h1, h2] at hv
      exact Option.noConfusion hv
    | some idx2 =>
      rw [h1, h2] at hv
      have hv2 : (if (cogsFor data lang1 concept ∩ cogsFor data lang2 concept).Nonempty then
          some (npMul (npRecip (powf (dm idx1 idx2) pw))
            (powf ((cogsFor data lang1 concept ∩ cogsFor data lang2 concept).card : ℚ) sf))
        else none) = some v := hv
      by_cases hsh : (cogsFor data lang1 concept ∩ cogsFor data lang2 concept).Nonempty
      · rw [if_pos hsh] at hv2
        obtain rfl := Option.some.inj hv2
        exact npMul_nng_finPos (npRecip_nng (powf_nng (hdm idx1 idx2)))
          (powf_natCast_finPos hsh.card_pos)
      · rw [if_neg hsh] at hv2
        exact Option.noConfusion hv2

theorem pairContribs_nng {data : List ((String × String) × Finset ℕ)}
    {dm : ℕ → ℕ → ℚ} {ls : List String} {pw sf : ℚ} {l1 l2 : String}
    (hdm : ∀ i j, 0 ≤ dm i j) :
    ∀ v ∈ pairContribs data dm ls pw sf l1 l2, nngB v = true := by
  intro v hv
  rw [pairContribs, List.mem_flatten] at hv
  obtain ⟨L, hL, hvL⟩ := hv
  rw [List.mem_map] at hL
  obtain ⟨concept, hconcept, rfl⟩ := hL
  rw [List.mem_filterMap] at hvL
  obtain ⟨ab, hab, hsome⟩ := hvL
  split at hsome
  · exact contribution_nng hdm hsome
  · exact Option.noConfusion hsome

/-- A shared cognate set at distance 0 contributes exactly
1 / 0 ** pw * shared ** sf = inf * positive = inf (for pw > 0). -/
theorem contribution_inf {data : List ((String × String) × Finset ℕ)}
    {dm : ℕ → ℕ → ℚ} {ls : List String} {pw sf : ℚ} {concept l1 l2 : String}
    {idx1 idx2 : ℕ} (hpw : 0 < pw)
    (hi1 : languageIndex ls l1 = some idx1) (hi2 : languageIndex ls l2 = some idx2)
    (hshared : (cogsFor data l1 concept ∩ cogsFor data l2 concept).Nonempty)
    (hzero : dm idx1 idx2 = 0) :
    contribution data dm ls pw sf concept l1 l2 = some .inf := by
  rw [contribution, hi1, hi2]
  show (if (cogsFor data l1 concept ∩ cogsFor data l2 concept).Nonempty then
      some (npMul (npRecip (powf (dm idx1 idx2) pw))
        (powf ((cogsFor data l1 concept ∩ cogsFor data l2 concept).card : ℚ) sf))
    else none) = some .inf
  rw [if_pos hshared, hzero]
  have h1 : powf 0 pw = .val 0 := by
    rw [powf, if_neg (ne_of_gt hpw), if_pos rfl, if_pos hpw]
  have h2 : npRecip (.val 0) = .inf := by
    rw [npRecip]
    exact if_pos rfl
  rw [h1, h2, npMul_inf_finPos (powf_natCast_finPos hshared.card_pos)]

theorem mem_pairContribs_inf {data : List ((String × String) × Finset ℕ)}
    {dm : ℕ → ℕ → ℚ} {ls : List String} {pw sf : ℚ} {concept l1 l2 : String}
    (hconcept : concept ∈ conceptsIn data)
    (hpair : (l1, l2) ∈ orderedPairs (langsFor data concept))
    (hcontr : contribution data dm ls pw sf concept l1 l2 = some .inf) :
    NpVal.inf ∈ pairContribs data dm ls pw sf l1 l2 := by
  rw [pairContribs, List.mem_flatten]
  refine ⟨_, List.mem_map_of_mem _ hconcept, ?_⟩
  rw [List.mem_filterMap]
  exact ⟨(l1, l2), hpair, by rw [if_pos (Or.inl ⟨rfl, rfl⟩)]; exact hcontr⟩

/-- C8 counterexample: adjusted_cognateset_graph does not error on a
zero distance between two distinct languages that share a cognate set.
With data {("A","c1"): {1}, ("B","c1"): {1}}, an all-zero distance
matrix and the default proximity_weight = sharing_factor = 0.5, numpy
evaluates the proximity correction 1 / 0.0 ** 0.5 as the float inf
(a RuntimeWarning, not an exception), the accumulated weight for the
pair ("A","B") is inf, inf > 0 holds, and the graph gets an edge of
weight inf. -/
theorem C8_zero_distance_no_error :
    adjusted_cognateset_graph_weight
        [(("A", "c1"), ({1} : Finset ℕ)), (("B", "c1"), ({1} : Finset ℕ))]
        (fun _ _ => 0) ["A", "B"] (1/2) (1/2) "A" "B" = NpVal.inf ∧
      adjusted_cognateset_graph_edge
        [(("A", "c1"), ({1} : Finset ℕ)), (("B", "c1"), ({1} : Finset ℕ))]
        (fun _ _ => 0) ["A", "B"] (1/2) (1/2) "A" "B" = some true := by
  have hA : adjusted_cognateset_graph_weight
      [(("A", "c1"), ({1} : Finset ℕ)), (("B", "c1"), ({1} : Finset ℕ))]
      (fun _ _ => 0) ["A", "B"] (1/2) (1/2) "A" "B"
      = npAdd (.val 0) (npMul (npRecip (powf 0 (1/2))) (powf ((1 : ℕ) : ℚ) (1/2))) := rfl
  have h1 : powf 0 (1/2) = .val 0 := by norm_num [powf]
  have h2 : powf ((1 : ℕ) : ℚ) (1/2) = .val 1 := by norm_num [powf]
  have hw : adjusted_cognateset_graph_weight
      [(("A", "c1"), ({1} : Finset ℕ)), (("B", "c1"), ({1} : Finset ℕ))]
      (fun _ _ => 0) ["A", "B"] (1/2) (1/2) "A" "B" = NpVal.inf := by
    rw [hA, h1, h2]
    decide
  refine ⟨hw, ?_⟩
  rw [adjusted_cognateset_graph_edge, hw]
  rfl

/-- C8: what the code actually guarantees in the degenerate case the
claim is about.  If some concept makes the pair (l1, l2) share a
cognate set, both languages are in language_index, the distance matrix
is nonnegative and gives the pair distance 0, and proximity_weight is
positive, then adjusted_cognateset_graph does not error: the
accumulated weight for the pair is the float inf and the edge is added
(inf > 0).  The correction to the claim is the error-handling clause:
numpy turns the division 1 / 0.0 ** w into inf with a RuntimeWarning,
which by default raises nothing (src/graph.py lines 139-145, 151-153). -/
theorem C8_zero_distance_infinite_weight
    (data : List ((String × String) × Finset ℕ)) (dm : ℕ → ℕ → ℚ)
    (ls : List String) (pw sf : ℚ) (concept l1 l2 : String) (idx1 idx2 : ℕ)
    (hpw : 0 < pw) (hdm : ∀ i j, 0 ≤ dm i j)
    (hconcept : concept ∈ conceptsIn data)
    (hpair : (l1, l2) ∈ orderedPairs (langsFor data concept))
    (hi1 : languageIndex ls l1 = some idx1)
    (hi2 : languageIndex ls l2 = some idx2)
    (hshared : (cogsFor data l1 concept ∩ cogsFor data l2 concept).Nonempty)
    (hzero : dm idx1 idx2 = 0) :
    adjusted_cognateset_graph_weight data dm ls pw sf l1 l2 = NpVal.inf ∧
      adjusted_cognateset_graph_edge data dm ls pw sf l1 l2 = some true := by
  have hw : adjusted_cognateset_graph_weight data dm ls pw sf l1 l2 = NpVal.inf := by
    rw [adjusted_cognateset_graph_weight]
    exact foldl_npAdd_inf _ _ (pairContribs_nng hdm) (by decide)
      (Or.inr (mem_pairContribs_inf hconcept hpair
        (contribution_inf hpw hi1 hi2 hshared hzero)))
  refine ⟨hw, ?_⟩
  rw [adjusted_cognateset_graph_edge, hw]
  rfl

theorem C8_zero_distance_infinite_weight_witness :
    (0 : ℚ) < 1/2 ∧
      (adjusted_cognateset_graph_weight
          [(("A", "c2"), ({1, 2} : Finset ℕ)), (("B", "c2"), ({2} : Finset ℕ))]
          (fun _ _ => 0) ["A", "B"] (1/2) (1/2) "A" "B" = NpVal.inf ∧
        adjusted_cognateset_graph_edge
          [(("A", "c2"), ({1, 2} : Finset ℕ)), (("B", "c2"), ({2} : Finset ℕ))]
          (fun _ _ => 0) ["A", "B"] (1/2) (1/2) "A" "B" = some true) :=
  ⟨by norm_num,
    C8_zero_distance_infinite_weight
      [(("A", "c2"), ({1, 2} : Finset ℕ)), (("B", "c2"), ({2} : Finset ℕ))]
      (fun _ _ => 0) ["A", "B"] (1/2) (1/2) "c2" "A" "B" 0 1
      (by norm_num) (fun _ _ => le_refl 0) (by decide) (by decide) rfl rfl
      (by decide) rfl⟩

end Grape
